import Mathlib

/-!
Verification of the catharsis library store against its specification.

The development shallowly embeds the JavaScript sources of the repository:

* src/services/utils.js          : compareVersions, isNewerPatchVersion
* src/services/h5p-utils.js      : decomposeUberName, findH5PDependenciesInSemantics
* src/models/libraries.js        : the Libraries store and its queries
* src/models/importer.js         : zip validation and the library merge policy
* src/models/hub-registry.js     : the Exporter dependency compilation
* src/commands (check command)   : checkForConflictingDependencies

JavaScript strings are modelled as lists of characters; JavaScript null and
undefined are modelled with Option; exceptions are modelled with Except.
Recursive procedures whose termination is part of what we verify are given an
explicit fuel argument; running out of fuel is a distinguished error value.
-/

namespace Catharsis

/-- JavaScript strings are modelled as lists of characters. -/
abbrev JStr := List Char

/-- Conversion from a Lean string literal to the model string type. -/
def jstr (s : String) : JStr := s.data

/-- Model of the JavaScript String.split method with a one character
separator: splits on every occurrence, the empty string yields one empty
group, as in JavaScript where the split of the empty string is a one element
array holding the empty string. -/
def jsSplit (sep : Char) : JStr → List JStr
  | [] => [[]]
  | c :: rest =>
    match jsSplit sep rest with
    | [] => [[c]]
    | g :: gs => if c = sep then [] :: g :: gs else (c :: g) :: gs

/-- Model of the JavaScript String.startsWith method. -/
def jsStartsWith (s pre : JStr) : Bool :=
  match pre, s with
  | [], _ => true
  | _ :: _, [] => false
  | a :: as, b :: bs => a == b && jsStartsWith bs as

theorem jsSplit_ne_nil (sep : Char) (s : JStr) : jsSplit sep s ≠ [] := by
  cases s with
  | nil => simp [jsSplit]
  | cons c rest =>
    simp only [jsSplit]
    cases jsSplit sep rest with
    | nil => simp
    | cons g gs => by_cases h : c = sep <;> simp [h]

theorem jsSplit_no_sep (sep : Char) (s : JStr) (h : ∀ c ∈ s, c ≠ sep) :
    jsSplit sep s = [s] := by
  induction s with
  | nil => rfl
  | cons c rest ih =>
    have hc : c ≠ sep := h c (by simp)
    have hr : jsSplit sep rest = [rest] := ih (fun x hx => h x (by simp [hx]))
    simp [jsSplit, hr, hc]

theorem jsSplit_append_sep (sep : Char) (a b : JStr) (h : ∀ c ∈ a, c ≠ sep) :
    jsSplit sep (a ++ sep :: b) = a :: jsSplit sep b := by
  induction a with
  | nil =>
    simp only [List.nil_append, jsSplit]
    cases hh : jsSplit sep b with
    | nil => exact absurd hh (jsSplit_ne_nil sep b)
    | cons g gs => simp
  | cons c rest ih =>
    have hc : c ≠ sep := h c (by simp)
    have hr := ih (fun x hx => h x (by simp [hx]))
    simp only [List.cons_append, jsSplit, List.append_eq]
    rw [hr]
    simp [hc]

theorem mem_of_mem_jsSplit {sep : Char} {s : JStr} {g : JStr}
    (hg : g ∈ jsSplit sep s) {c : Char} (hc : c ∈ g) : c ∈ s := by
  induction s generalizing g with
  | nil =>
    simp only [jsSplit, List.mem_singleton] at hg
    subst hg
    simp at hc
  | cons x rest ih =>
    simp only [jsSplit] at hg
    cases hh : jsSplit sep rest with
    | nil => exact absurd hh (jsSplit_ne_nil sep rest)
    | cons g0 gs0 =>
      rw [hh] at hg
      simp only at hg
      by_cases hx : x = sep
      · rw [if_pos hx] at hg
        rcases List.mem_cons.mp hg with h1 | h1
        · subst h1; simp at hc
        · exact List.mem_cons_of_mem _ (ih (hh ▸ h1) hc)
      · rw [if_neg hx] at hg
        rcases List.mem_cons.mp hg with h1 | h1
        · subst h1
          rcases List.mem_cons.mp hc with h2 | h2
          · simp [h2]
          · exact List.mem_cons_of_mem _ (ih (hh ▸ List.mem_cons_self g0 gs0) h2)
        · exact List.mem_cons_of_mem _ (ih (hh ▸ List.mem_cons_of_mem _ h1) hc)

theorem no_sep_of_mem_jsSplit {sep : Char} {s : JStr} {g : JStr}
    (hg : g ∈ jsSplit sep s) : ∀ c ∈ g, c ≠ sep := by
  induction s generalizing g with
  | nil =>
    simp only [jsSplit, List.mem_singleton] at hg
    subst hg
    simp
  | cons x rest ih =>
    simp only [jsSplit] at hg
    cases hh : jsSplit sep rest with
    | nil => exact absurd hh (jsSplit_ne_nil sep rest)
    | cons g0 gs0 =>
      rw [hh] at hg
      simp only at hg
      by_cases hx : x = sep
      · rw [if_pos hx] at hg
        rcases List.mem_cons.mp hg with h1 | h1
        · subst h1; simp
        · exact ih (hh ▸ h1)
      · rw [if_neg hx] at hg
        rcases List.mem_cons.mp hg with h1 | h1
        · subst h1
          intro c hc
          rcases List.mem_cons.mp hc with h2 | h2
          · simpa [h2] using hx
          · exact ih (hh ▸ List.mem_cons_self g0 gs0) c h2
        · exact ih (hh ▸ List.mem_cons_of_mem _ h1)

/-- Character class of decimal digits, as used by the uber name pattern. -/
def jsIsDigit (c : Char) : Bool := '0' ≤ c && c ≤ '9'

/-- Character class of ASCII letters, as used by the uber name pattern. -/
def jsIsAlpha (c : Char) : Bool := ('a' ≤ c && c ≤ 'z') || ('A' ≤ c && c ≤ 'Z')

/-- Decimal digit character for a value below ten. -/
def digitChar (n : Nat) : Char := Char.ofNat (48 + n)

/-- Fuel bounded digit expansion; the fuel dominates the value so the
recursion is structural and evaluates inside the kernel. -/
def natDigitsAux : Nat → Nat → JStr
  | 0, _ => []
  | fuel + 1, n =>
    if n < 10 then [digitChar n]
    else natDigitsAux fuel (n / 10) ++ [digitChar (n % 10)]

/-- Decimal representation of a non-negative integer, as produced by the
JavaScript number to string coercion used in template literals. -/
def natDigits (n : Nat) : JStr := natDigitsAux (n + 1) n

theorem natDigitsAux_stable :
    ∀ f g n : Nat, n < f → n < g → natDigitsAux f n = natDigitsAux g n := by
  intro f
  induction f with
  | zero => intro g n h _; omega
  | succ f ih =>
    intro g n hf hg
    cases g with
    | zero => omega
    | succ g =>
      by_cases h10 : n < 10
      · simp [natDigitsAux, h10]
      · have hdiv : n / 10 < n := Nat.div_lt_self (by omega) (by omega)
        simp only [natDigitsAux, if_neg h10]
        rw [ih g (n / 10) (by omega) (by omega)]

theorem natDigits_unfold (n : Nat) :
    natDigits n =
      if n < 10 then [digitChar n]
      else natDigits (n / 10) ++ [digitChar (n % 10)] := by
  show natDigitsAux (n + 1) n = _
  by_cases h10 : n < 10
  · simp [natDigitsAux, h10]
  · have hdiv : n / 10 < n := Nat.div_lt_self (by omega) (by omega)
    simp only [natDigitsAux, if_neg h10]
    rw [natDigitsAux_stable n (n / 10 + 1) (n / 10) hdiv (by omega)]
    rfl

theorem natDigits_ne_nil (n : Nat) : natDigits n ≠ [] := by
  rw [natDigits_unfold]
  by_cases h : n < 10 <;> simp [h]

theorem digitChar_isDigit (n : Nat) (h : n < 10) : jsIsDigit (digitChar n) = true := by
  interval_cases n <;> decide

theorem natDigits_all_digit (n : Nat) : ∀ c ∈ natDigits n, jsIsDigit c = true := by
  induction n using Nat.strong_induction_on with
  | _ n ih =>
    rw [natDigits_unfold]
    by_cases h : n < 10
    · simp only [if_pos h, List.mem_singleton]
      intro c hc
      subst hc
      exact digitChar_isDigit n h
    · simp only [if_neg h, List.mem_append, List.mem_singleton]
      intro c hc
      rcases hc with hc | hc
      · exact ih (n / 10) (Nat.div_lt_self (by omega) (by omega)) c hc
      · subst hc
        exact digitChar_isDigit _ (Nat.mod_lt _ (by omega))

theorem not_digit_space : jsIsDigit ' ' = false := by decide

theorem not_digit_dot : jsIsDigit '.' = false := by decide

theorem not_digit_dash : jsIsDigit '-' = false := by decide

theorem natDigits_no_space (n : Nat) : ∀ c ∈ natDigits n, c ≠ ' ' := by
  intro c hc h
  have := natDigits_all_digit n c hc
  rw [h] at this
  simp [not_digit_space] at this

theorem natDigits_no_dot (n : Nat) : ∀ c ∈ natDigits n, c ≠ '.' := by
  intro c hc h
  have := natDigits_all_digit n c hc
  rw [h] at this
  simp [not_digit_dot] at this

/-- Model of the JavaScript Number conversion, for the subset of strings that
appear as components of version strings: the empty string converts to 0 and a
string of decimal digits converts to its value; every other string converts
to NaN, modelled as none.  (JavaScript also accepts signs, blanks, and
exponent forms, none of which occur in version data handled by the code.) -/
def jsNum (s : JStr) : Option Int :=
  if s = [] then some 0
  else if s.all jsIsDigit then
    some (s.foldl (fun a c => a * 10 + (c.toNat - 48)) (0 : Nat) : Nat)
  else none

/-- Value of an indexed version part under the JavaScript expression
part or zero: NaN and undefined are falsy and replaced by 0. -/
def jsOr0 : Option Int → Int
  | some x => x
  | none => 0

/-- Tail of the comparison loop once the first part list is exhausted:
every remaining part of the second list is compared against 0. -/
def comparePartsRight : List (Option Int) → Int
  | [] => 0
  | y :: ys =>
    if 0 > jsOr0 y then 1 else if 0 < jsOr0 y then -1 else comparePartsRight ys

/-- Tail of the comparison loop once the second part list is exhausted:
every remaining part of the first list is compared against 0. -/
def comparePartsLeft : List (Option Int) → Int
  | [] => 0
  | x :: xs =>
    if jsOr0 x > 0 then 1 else if jsOr0 x < 0 then -1 else comparePartsLeft xs

/-- Comparison loop of compareVersions from src/services/utils.js: walks both
part lists in step up to the longer length, missing parts reading as
undefined and coerced to 0. -/
def compareParts : List (Option Int) → List (Option Int) → Int
  | [], ys => comparePartsRight ys
  | x :: xs, [] =>
    if jsOr0 x > 0 then 1 else if jsOr0 x < 0 then -1 else comparePartsLeft xs
  | x :: xs, y :: ys =>
    if jsOr0 x > jsOr0 y then 1
    else if jsOr0 x < jsOr0 y then -1
    else compareParts xs ys

/-- Model of compareVersions from src/services/utils.js. -/
def compareVersions (v1 v2 : JStr) : Int :=
  compareParts ((jsSplit '.' v1).map jsNum) ((jsSplit '.' v2).map jsNum)

/-- Strict inequality of two possibly missing numeric parts, following the
JavaScript strict inequality: NaN is unequal to everything including itself,
undefined is strictly equal only to undefined. -/
def jsStrictNeq : Option (Option Int) → Option (Option Int) → Bool
  | none, none => false
  | some (some x), some (some y) => x != y
  | _, _ => true

/-- Greater-than of two possibly missing numeric parts, following the
JavaScript relational operator: any comparison involving NaN or undefined
(after failed numeric coercion) is false.  Note undefined coerces to NaN
for relational operators. -/
def jsGtNum : Option (Option Int) → Option (Option Int) → Bool
  | some (some x), some (some y) => x > y
  | _, _ => false

/-- Model of isNewerPatchVersion from src/services/utils.js. -/
def isNewerPatchVersion (old candidate : JStr) : Bool :=
  let oldParts := (jsSplit '.' old).map jsNum
  let candidateParts := (jsSplit '.' candidate).map jsNum
  if jsStrictNeq (candidateParts.get? 0) (oldParts.get? 0)
     || jsStrictNeq (candidateParts.get? 1) (oldParts.get? 1) then false
  else jsGtNum (candidateParts.get? 2) (oldParts.get? 2)

/-- Result of decomposeUberName from src/services/h5p-utils.js.  The fields
hold JavaScript strings or null, with null modelled as none. -/
structure Decomp where
  machineName : Option JStr
  majorVersion : Option JStr
  minorVersion : Option JStr
  patchVersion : Option JStr
deriving DecidableEq, Repr

/-- Model of decomposeUberName from src/services/h5p-utils.js: the name is
split on spaces, the machine name is the first group made null when empty
(it is falsy then), and the version fields come from splitting the second
group on dots, missing entries collapsing to null. -/
def decomposeUberName (uberName : JStr) : Decomp :=
  let parts := jsSplit ' ' uberName
  { machineName :=
      match parts.head? with
      | some [] => none
      | some s => some s
      | none => none
    majorVersion := (parts.get? 1).bind fun vp => (jsSplit '.' vp).get? 0
    minorVersion := (parts.get? 1).bind fun vp => (jsSplit '.' vp).get? 1
    patchVersion := (parts.get? 1).bind fun vp => (jsSplit '.' vp).get? 2 }

/-- Truthiness of a JavaScript string-or-null value: null and the empty
string are falsy. -/
def truthy : Option JStr → Bool
  | some s => s != []
  | none => false

/-- String interpolation of a string-or-null value: null prints as null. -/
def jsShowOptStr : Option JStr → JStr
  | some s => s
  | none => jstr "null"

/-- Order preserving removal of duplicates, as produced by the JavaScript
spread of a Set built from an array: the first occurrence survives. -/
def jsSetDedupAux {α : Type} [DecidableEq α] : List α → List α → List α
  | [], _ => []
  | x :: xs, seen =>
    if x ∈ seen then jsSetDedupAux xs seen else x :: jsSetDedupAux xs (x :: seen)

/-- Model of the JavaScript idiom spread of new Set(xs). -/
def jsSetDedup {α : Type} [DecidableEq α] (xs : List α) : List α :=
  jsSetDedupAux xs []

theorem mem_jsSetDedupAux {α : Type} [DecidableEq α] {y : α} :
    ∀ (xs seen : List α), y ∈ jsSetDedupAux xs seen ↔ (y ∈ xs ∧ y ∉ seen) := by
  intro xs
  induction xs with
  | nil => intro seen; simp [jsSetDedupAux]
  | cons x xs ih =>
    intro seen
    simp only [jsSetDedupAux]
    by_cases hx : x ∈ seen
    · rw [if_pos hx, ih]
      constructor
      · rintro ⟨h1, h2⟩
        exact ⟨List.mem_cons_of_mem _ h1, h2⟩
      · rintro ⟨h1, h2⟩
        rcases List.mem_cons.mp h1 with h | h
        · subst h; exact absurd hx h2
        · exact ⟨h, h2⟩
    · rw [if_neg hx]
      simp only [List.mem_cons, ih]
      constructor
      · rintro (h | ⟨h1, h2⟩)
        · subst h; exact ⟨Or.inl rfl, hx⟩
        · exact ⟨Or.inr h1, fun hc => h2 (Or.inr hc)⟩
      · rintro ⟨h1 | h1, h2⟩
        · exact Or.inl h1
        · by_cases hyx : y = x
          · exact Or.inl hyx
          · exact Or.inr ⟨h1, fun hc => by
              rcases hc with h | h
              · exact hyx h
              · exact h2 h⟩

theorem mem_jsSetDedup {α : Type} [DecidableEq α] {y : α} (xs : List α) :
    y ∈ jsSetDedup xs ↔ y ∈ xs := by
  rw [jsSetDedup, mem_jsSetDedupAux]
  simp

theorem nodup_jsSetDedupAux {α : Type} [DecidableEq α] :
    ∀ (xs seen : List α), (jsSetDedupAux xs seen).Nodup := by
  intro xs
  induction xs with
  | nil => intro seen; simp [jsSetDedupAux]
  | cons x xs ih =>
    intro seen
    simp only [jsSetDedupAux]
    by_cases hx : x ∈ seen
    · rw [if_pos hx]; exact ih seen
    · rw [if_neg hx]
      refine List.nodup_cons.mpr ⟨?_, ih (x :: seen)⟩
      intro hc
      exact ((mem_jsSetDedupAux xs (x :: seen)).mp hc).2 (List.mem_cons_self x seen)

theorem nodup_jsSetDedup {α : Type} [DecidableEq α] (xs : List α) :
    (jsSetDedup xs).Nodup := nodup_jsSetDedupAux xs []

theorem jsSetDedupAux_of_nodup {α : Type} [DecidableEq α] :
    ∀ (xs seen : List α), xs.Nodup → (∀ x ∈ xs, x ∉ seen) →
      jsSetDedupAux xs seen = xs := by
  intro xs
  induction xs with
  | nil => intro seen _ _; rfl
  | cons x xs ih =>
    intro seen hnd hs
    have hx : x ∉ seen := hs x (List.mem_cons_self x xs)
    simp only [jsSetDedupAux, if_neg hx]
    congr 1
    refine ih (x :: seen) (List.nodup_cons.mp hnd).2 ?_
    intro y hy hc
    rcases List.mem_cons.mp hc with h | h
    · exact (List.nodup_cons.mp hnd).1 (h ▸ hy)
    · exact hs y (List.mem_cons_of_mem _ hy) h

theorem jsSetDedup_of_nodup {α : Type} [DecidableEq α] {xs : List α}
    (h : xs.Nodup) : jsSetDedup xs = xs :=
  jsSetDedupAux_of_nodup xs [] h (by simp)

/-! ## Semantics documents and the uber name pattern -/

mutual

/-- JSON values of a semantics document.  Arrays and objects carry their own
list shapes so that the recursive search below is structural. -/
inductive Sem where
  | str (s : JStr)
  | num (n : Int)
  | bool (b : Bool)
  | null
  | arr (items : SemList)
  | obj (fields : SemFields)

/-- Members of a JSON array. -/
inductive SemList where
  | nil
  | cons (hd : Sem) (tl : SemList)

/-- Fields of a JSON object in insertion order. -/
inductive SemFields where
  | nil
  | cons (key : JStr) (val : Sem) (tl : SemFields)

end

/-- Matcher for the uber name pattern anchored at the start of the string:
the literal H5P and a dot, one or more letters, a space, one or more digits,
a dot, one or more digits.  The character classes following each literal are
disjoint from the literal that ends them, so maximal munch agrees with the
backtracking regular expression engine. -/
def h5pPatternAt (s : JStr) : Bool :=
  match s with
  | 'H' :: '5' :: 'P' :: '.' :: rest =>
    let alphas := rest.takeWhile jsIsAlpha
    let rest2 := rest.dropWhile jsIsAlpha
    if alphas.isEmpty then false
    else
      match rest2 with
      | ' ' :: rest3 =>
        let d1 := rest3.takeWhile jsIsDigit
        let rest4 := rest3.dropWhile jsIsDigit
        if d1.isEmpty then false
        else
          match rest4 with
          | '.' :: rest5 => !(rest5.takeWhile jsIsDigit).isEmpty
          | _ => false
      | _ => false
  | _ => false

/-- Unanchored test of the uber name pattern, as performed by the regular
expression test in findH5PDependenciesInSemantics. -/
def h5pTest (s : JStr) : Bool := s.tails.any h5pPatternAt

/-- Option values of an options array that pass the uber name test.  String
options carry their own text; option values of other shapes are coerced by
the JavaScript test and never contain the letter sequence of the pattern, so
they never match. -/
def matchingOptions : SemList → List JStr
  | .nil => []
  | .cons o rest =>
    (match o with
     | .str s => if h5pTest s then [s] else []
     | _ => []) ++ matchingOptions rest

/-- First field of a JavaScript object with the given key. -/
def semField : SemFields → JStr → Option Sem
  | .nil, _ => none
  | .cons k v rest, key => if k == key then some v else semField rest key

mutual

/-- Model of findH5PDependenciesInSemantics from src/services/h5p-utils.js:
walks the document, collecting the members of every options array that match
the uber name pattern, then recursing into every member of arrays and every
field value of objects in order. -/
def findH5PDepsSem : Sem → List JStr
  | .arr items => findH5PDepsList items
  | .obj fields =>
    (match semField fields (jstr "options") with
     | some (.arr opts) => matchingOptions opts
     | _ => []) ++ findH5PDepsFields fields
  | _ => []

def findH5PDepsList : SemList → List JStr
  | .nil => []
  | .cons x xs => findH5PDepsSem x ++ findH5PDepsList xs

def findH5PDepsFields : SemFields → List JStr
  | .nil => []
  | .cons _ v fs => findH5PDepsSem v ++ findH5PDepsFields fs

end

/-! ## The library store -/

/-- Entry of the preloadedDependencies or editorDependencies list of a
manifest. -/
structure DepEntry where
  machineName : JStr
  majorVersion : Nat
  minorVersion : Nat
deriving DecidableEq, Repr

/-- Manifest of one installed package, as read from its library.json.  The
title stands in for the metadata fields not used by the resolution logic.
Note there is no field named version: the manifest carries the three numeric
components separately, a fact the latest-version reduce in getLibraryJson
gets wrong. -/
structure LibraryJson where
  machineName : JStr
  majorVersion : Nat
  minorVersion : Nat
  patchVersion : Nat
  runnable : Nat
  title : JStr := []
  preloadedDependencies : List DepEntry := []
  editorDependencies : List DepEntry := []
deriving DecidableEq, Repr, Inhabited

/-- Version string of a manifest, major dot minor dot patch, as interpolated
throughout the sources. -/
def verString (l : LibraryJson) : JStr :=
  natDigits l.majorVersion ++ '.' :: (natDigits l.minorVersion ++ '.' :: natDigits l.patchVersion)

/-- Minor line string of a manifest, major dot minor. -/
def minorString (l : LibraryJson) : JStr :=
  natDigits l.majorVersion ++ '.' :: natDigits l.minorVersion

/-- State of the Libraries store of src/models/libraries.js.  The data list
is the in-memory snapshot of manifests in directory scan order; folders is
the set of directory names below the base path, standing in for existsSync;
semanticsFiles maps a folder name to the parsed semantics.json inside it,
when that file exists. -/
structure Libraries where
  data : List LibraryJson
  folders : List JStr := []
  semanticsFiles : List (JStr × Sem) := []

/-- Errors of the embedding: typeError models a thrown JavaScript TypeError,
fuelExhausted marks insufficient fuel for a recursion whose termination is
under study, pathTraversal and symlink model the security aborts of the
importer. -/
inductive JsErr where
  | typeError
  | fuelExhausted
  | pathTraversal
  | symlink
deriving DecidableEq, Repr

instance {ε α : Type} [DecidableEq ε] [DecidableEq α] : DecidableEq (Except ε α) := fun a b =>
  match a, b with
  | .error x, .error y => decidable_of_iff (x = y) (by simp)
  | .error _, .ok _ => isFalse (by simp)
  | .ok _, .error _ => isFalse (by simp)
  | .ok x, .ok y => decidable_of_iff (x = y) (by simp)

/-- Model of Libraries.getLibraryJson.  When the uber name carries a truthy
major and minor version the exact minor line is looked up first.  Otherwise,
or when that lookup fails non-exactly, the code reduces over all manifests of
the machine name; the reduce reads a version property that library.json
objects do not have, so every manifest is compared against 0.0.0 and the last
scanned manifest with a version above 0.0.0 wins. -/
def getLibraryJson (st : Libraries) (uberName : JStr) (exact : Bool := false) :
    Option LibraryJson :=
  let d := decomposeUberName uberName
  let found :=
    if truthy d.majorVersion && truthy d.minorVersion then
      st.data.find? fun l =>
        d.machineName == some l.machineName
          && d.majorVersion == some (natDigits l.majorVersion)
          && d.minorVersion == some (natDigits l.minorVersion)
    else none
  match found with
  | some l => some l
  | none =>
    if exact then none
    else
      (st.data.filter fun l => d.machineName == some l.machineName).foldl
        (fun latest l =>
          match latest with
          | none => some l
          | some _ =>
            if compareVersions (verString l) (jstr "0.0.0") > 0 then some l else latest)
        none

/-- Model of calling getLibraryJson with a decomposed machine name value,
which the sources do in several places: passing null makes the split inside
decomposeUberName throw. -/
def getLibraryJsonOfOpt (st : Libraries) (mn : Option JStr) :
    Except JsErr (Option LibraryJson) :=
  match mn with
  | none => .error .typeError
  | some s => .ok (getLibraryJson st s)

/-- Normal form an uber name reaches without consulting the store: defined
exactly when major and minor are truthy, in which case the machine name and
those two fields are interpolated. -/
def norm1FormOf (u : JStr) : Option JStr :=
  let d := decomposeUberName u
  if truthy d.majorVersion && truthy d.minorVersion then
    some (jsShowOptStr d.machineName ++ ' ' :: (d.majorVersion.getD [] ++ '.' :: d.minorVersion.getD []))
  else none

/-- Model of Libraries.getUbernameForMinorVersion: with truthy major and
minor the interpolated minor line is returned directly; otherwise the store
is consulted for the machine name and a missing manifest makes the
interpolation of library.majorVersion throw. -/
def getUbernameForMinorVersion (st : Libraries) (uberName : JStr) : Except JsErr JStr :=
  match norm1FormOf uberName with
  | some s => .ok s
  | none =>
    match getLibraryJson st uberName with
    | none => .error .typeError
    | some lib =>
      .ok (jsShowOptStr (decomposeUberName uberName).machineName
            ++ ' ' :: (natDigits lib.majorVersion ++ '.' :: natDigits lib.minorVersion))

/-- Lookup of a semantics file by folder name, modelling existsSync followed
by a read. -/
def semLookup (st : Libraries) (folder : JStr) : Option Sem :=
  (st.semanticsFiles.find? fun p => p.1 == folder).map Prod.snd

/-- Model of Libraries.getSemanticsJson: resolves the manifest by machine
name, then probes the folder named by the requested or resolved major and
minor, then the folder carrying the full resolved version. -/
def getSemanticsJson (st : Libraries) (uberName : JStr) : Except JsErr (Option Sem) :=
  let d := decomposeUberName uberName
  match getLibraryJsonOfOpt st d.machineName with
  | .error e => .error e
  | .ok none => .ok none
  | .ok (some lib) =>
    let folder1 := jsShowOptStr d.machineName
      ++ '-' :: ((match d.majorVersion with | some s => s | none => natDigits lib.majorVersion)
        ++ '.' :: (match d.minorVersion with | some s => s | none => natDigits lib.minorVersion))
    match semLookup st folder1 with
    | some sem => .ok (some sem)
    | none =>
      let folder2 := jsShowOptStr d.machineName
        ++ '-' :: (natDigits lib.majorVersion
          ++ '.' :: (natDigits lib.minorVersion ++ '.' :: natDigits lib.patchVersion))
      .ok (semLookup st folder2)

/-- Dependency kinds accepted by Libraries.getDependencies. -/
inductive DepType where
  | all
  | mandatory
  | optional
deriving DecidableEq, Repr

/-- Uber name of a dependency entry, machine name space major dot minor, as
interpolated by getDependencies. -/
def fmtDep (d : DepEntry) : JStr :=
  d.machineName ++ ' ' :: (natDigits d.majorVersion ++ '.' :: natDigits d.minorVersion)

/-- Model of Libraries.getDependencies.  The minor line uber name is computed
first and can throw.  For the mandatory kinds the minor line name is pushed
and a failed exact lookup returns the empty list at once, discarding the
push; otherwise the formatted manifest dependencies follow.  For the optional
kinds the semantics dependencies are appended.  The result is deduplicated
in first occurrence order. -/
def getDependencies (st : Libraries) (uberName : JStr) (type : DepType := .all) :
    Except JsErr (List JStr) :=
  match getUbernameForMinorVersion st uberName with
  | .error e => .error e
  | .ok un =>
    match (if type = .all ∨ type = .mandatory then
             match getLibraryJson st uberName true with
             | none => none
             | some lib =>
               some (un :: (lib.preloadedDependencies.map fmtDep
                     ++ lib.editorDependencies.map fmtDep))
           else some []) with
    | none => .ok []
    | some deps1 =>
      if type = .all ∨ type = .optional then
        match getSemanticsJson st uberName with
        | .error e => .error e
        | .ok none => .ok (jsSetDedup deps1)
        | .ok (some sem) => .ok (jsSetDedup (deps1 ++ findH5PDepsSem sem))
      else .ok (jsSetDedup deps1)

/-- Model of Libraries.compileTotalDependencyList with explicit fuel.  The
two shared arrays are threaded as values: each call receives the current
checked and dependencies lists and the recursive result replaces the
dependencies accumulator in the caller.  When the frontier is empty the code
indexes past the end of the array and recurses on undefined, which the
default parameter of decomposeUberName turns into the empty string. -/
def compileTotalDependencyList (st : Libraries) :
    Nat → JStr → List JStr → List JStr → Except JsErr (List JStr)
  | 0, _, _, _ => .error .fuelExhausted
  | fuel + 1, uberName, checked, dependencies =>
    match getUbernameForMinorVersion st uberName with
    | .error e => .error e
    | .ok un =>
      if un ∈ checked then .ok dependencies
      else
        let checked1 := checked ++ [un]
        match getDependencies st uberName .all with
        | .error e => .error e
        | .ok myDeps =>
          let deps1 := jsSetDedup (dependencies ++ myDeps)
          if checked1.length = deps1.length then .ok deps1
          else
            let toCheck := deps1.filter fun d => d ∉ checked1
            match compileTotalDependencyList st fuel (toCheck.headD []) checked1 deps1 with
            | .error e => .error e
            | .ok recd => .ok (jsSetDedup (deps1 ++ recd))

/-- Model of Libraries.getFolderPath: resolves the manifest by machine name
only, ignoring any version the caller supplied, and returns the folder named
by the resolved minor line when it exists. -/
def getFolderPath (st : Libraries) (uberName : JStr) : Except JsErr (Option JStr) :=
  let d := decomposeUberName uberName
  match getLibraryJsonOfOpt st d.machineName with
  | .error e => .error e
  | .ok none => .ok none
  | .ok (some lib) =>
    let folderPath := jsShowOptStr d.machineName
      ++ '-' :: (natDigits lib.majorVersion ++ '.' :: natDigits lib.minorVersion)
    if folderPath ∈ st.folders then .ok (some folderPath) else .ok none

/-! ## Conflict detection (check command) -/

/-- Machine name of a closure entry as used by the conflict check: a null
machine name becomes the object key string null. -/
def entryMachineName (dep : JStr) : JStr :=
  jsShowOptStr (decomposeUberName dep).machineName

/-- Major dot minor string of a closure entry as interpolated by the
conflict check, null fields printing as null. -/
def entryVersion (dep : JStr) : JStr :=
  jsShowOptStr (decomposeUberName dep).majorVersion
    ++ '.' :: jsShowOptStr (decomposeUberName dep).minorVersion

/-- Model of checkForConflictingDependencies from the check command: the
total dependency list is mapped to machine name and version pairs, machine
names occurring more than once are kept, and their versions are grouped per
machine name in first occurrence order.  The report is modelled as the list
of machine names with their version lists, which is the content interpolated
into the warning messages. -/
def checkForConflictingDependencies (st : Libraries) (fuel : Nat) (uberName : JStr) :
    Except JsErr (List (JStr × List JStr)) :=
  match compileTotalDependencyList st fuel uberName [] [] with
  | .error e => .error e
  | .ok dependencyList =>
    let machineNameList := dependencyList.map fun dep => (entryMachineName dep, entryVersion dep)
    let duplicates := machineNameList.filter fun e =>
      1 < (machineNameList.map Prod.fst).count e.1
    if duplicates.isEmpty then .ok []
    else
      let keys := jsSetDedup (duplicates.map Prod.fst)
      .ok (keys.map fun k => (k, (duplicates.filter fun e => e.1 == k).map Prod.snd))

/-! ## The exporter -/

/-- Model of Exporter.getBaseDependencies: without a truthy major and minor
the store resolves the machine name, a missing manifest making the
interpolation throw, as does a null machine name passed to getLibraryJson. -/
def getBaseDependencies (st : Libraries) (mn maj minr : Option JStr) :
    Except JsErr (List JStr) :=
  if !(truthy maj && truthy minr) then
    match mn with
    | none => .error .typeError
    | some m =>
      match getLibraryJson st m with
      | none => .error .typeError
      | some lib =>
        .ok [m ++ ' ' :: (natDigits lib.majorVersion ++ '.' :: natDigits lib.minorVersion)]
  else
    .ok [jsShowOptStr mn ++ ' ' :: (maj.getD [] ++ '.' :: minr.getD [])]

/-- Model of Exporter.getSemanticsDependencies: the semantics of the machine
name are scanned; an undefined semantics document yields no matches. -/
def getSemanticsDependencies (st : Libraries) (mn : Option JStr) :
    Except JsErr (List JStr) :=
  match mn with
  | none => .error .typeError
  | some m =>
    match getSemanticsJson st m with
    | .error e => .error e
    | .ok none => .ok []
    | .ok (some sem) => .ok (findH5PDepsSem sem)

/-- Pending call of the exporter recursion: either one compileDependencies
expansion or the child loop of getChildDependencies over the remaining
dependency list. -/
inductive ExpCall where
  | compile (uberName : JStr) (checked : List JStr)
  | children (deps : List JStr) (checked : List JStr)

/-- Combined recursion of Exporter.compileDependencies and
Exporter.getChildDependencies with explicit fuel, structural in the fuel so
that closed calls evaluate inside the kernel.  The shared checked array is
threaded through and returned next to the result. -/
def expRec (st : Libraries) : Nat → ExpCall → Except JsErr (List JStr × List JStr)
  | 0, _ => .error .fuelExhausted
  | fuel + 1, .compile uberName checked =>
    let d := decomposeUberName uberName
    match getBaseDependencies st d.machineName d.majorVersion d.minorVersion with
    | .error e => .error e
    | .ok deps =>
      let checked1 := checked ++ [deps.headD []]
      match getLibraryJsonOfOpt st d.machineName with
      | .error e => .error e
      | .ok lib? =>
        let pre := ((lib?.map LibraryJson.preloadedDependencies).getD []).map fmtDep
        let ed := ((lib?.map LibraryJson.editorDependencies).getD []).map fmtDep
        match getSemanticsDependencies st d.machineName with
        | .error e => .error e
        | .ok sems =>
          let allDeps := deps ++ pre ++ ed ++ sems
          match expRec st fuel (.children allDeps checked1) with
          | .error e => .error e
          | .ok (children, checked2) =>
            .ok (jsSetDedup (allDeps ++ children), checked2)
  | _ + 1, .children [] checked => .ok ([], checked)
  | fuel + 1, .children (dep :: rest) checked =>
    if dep ∈ checked then expRec st fuel (.children rest checked)
    else
      match expRec st fuel (.compile dep checked) with
      | .error e => .error e
      | .ok (r, checked1) =>
        match expRec st fuel (.children rest checked1) with
        | .error e => .error e
        | .ok (rs, checked2) => .ok (r ++ rs, checked2)

/-- Model of Exporter.compileDependencies, entered with an empty checked
list by createExport. -/
def compileDependencies (st : Libraries) (fuel : Nat) (uberName : JStr)
    (checked : List JStr) : Except JsErr (List JStr × List JStr) :=
  expRec st fuel (.compile uberName checked)

/-- Filter loop of createExport: a dependency is kept when its machine name
resolves to any installed manifest; a null machine name thrown at
getLibraryJson aborts the whole export. -/
def keptDeps (st : Libraries) : List JStr → Except JsErr (List JStr)
  | [] => .ok []
  | dep :: rest =>
    match (decomposeUberName dep).machineName with
    | none => .error .typeError
    | some m =>
      match keptDeps st rest with
      | .error e => .error e
      | .ok ks => .ok (if (getLibraryJson st m).isSome then dep :: ks else ks)

/-- Copy loop of createExport: each kept dependency is copied from its
resolved source folder; an unresolved folder reaches path.basename as
undefined and throws. -/
def copiedFolders (st : Libraries) : List JStr → Except JsErr (List JStr)
  | [] => .ok []
  | dep :: rest =>
    match getFolderPath st dep with
    | .error e => .error e
    | .ok none => .error .typeError
    | .ok (some f) =>
      match copiedFolders st rest with
      | .error e => .error e
      | .ok fs => .ok (f :: fs)

/-- Model of the dependency filter and copy loop of Exporter.createExport.
The result pairs the dependency uber names kept by the installed filter with
the folder names their packages are copied from; the final manifest lookup
for the export file name is included, since a missing manifest there throws. -/
def createExport (st : Libraries) (fuel : Nat) (machineName : JStr) :
    Except JsErr (List JStr × List JStr) :=
  match compileDependencies st fuel machineName [] with
  | .error e => .error e
  | .ok (dependencyUberNames, _) =>
    match keptDeps st dependencyUberNames with
    | .error e => .error e
    | .ok kept =>
      match copiedFolders st kept with
      | .error e => .error e
      | .ok folders =>
        match getLibraryJson st machineName with
        | none => .error .typeError
        | some _ => .ok (kept, folders)

/-! ## The importer -/

/-- Segments of the resolved target of a zip entry, following path.resolve:
an entry starting with a slash resets to the root, then each segment is
folded, empty and dot segments vanishing and dot dot removing the last
segment, never escaping above the root. -/
def jsResolveSegs (base : List JStr) (entry : JStr) : List JStr :=
  let segs := jsSplit '/' entry
  let init := if entry.head? = some '/' then [] else base
  (init ++ segs).foldl
    (fun acc s =>
      if s = [] ∨ s = jstr "." then acc
      else if s = jstr ".." then acc.dropLast
      else acc ++ [s])
    []

/-- Containment test of validateZipEntries: the resolved entry path must
equal the extraction root or extend it by whole segments, which corresponds
to the string test against the root followed by the path separator. -/
def insideSegs : List JStr → List JStr → Bool
  | [], _ => true
  | _ :: _, [] => false
  | a :: as, b :: bs => a == b && insideSegs as bs

/-- Model of validateZipEntries from src/models/importer.js: every entry is
resolved against the extraction directory and the first escaping entry
aborts the extraction. -/
def validateZipEntries (extractTo : List JStr) : List JStr → Except JsErr Unit
  | [] => .ok ()
  | e :: rest =>
    if insideSegs extractTo (jsResolveSegs extractTo e) then
      validateZipEntries extractTo rest
    else .error .pathTraversal

/-- Archive supplied to the importer: the entry names drive the traversal
check, packages lists the top level package folders holding a manifest that
extraction would produce in scan order, and hasSymlink records whether the
extracted tree contains a symbolic link, which the permission walk rejects. -/
structure ZipArchive where
  entryNames : List JStr
  packages : List (JStr × LibraryJson) := []
  hasSymlink : Bool := false

/-- Identity mapping entry built by getIdentityMapping in the importer. -/
structure IdentityEntry where
  machineName : JStr
  folderName : JStr
  version : JStr
deriving DecidableEq, Repr

/-- Model of getIdentityMapping from src/models/importer.js over a folder
list given as pairs of folder name and manifest. -/
def getIdentityMapping (pkgs : List (JStr × LibraryJson)) : List IdentityEntry :=
  pkgs.map fun p => ⟨p.2.machineName, p.1, verString p.2⟩

/-- Leading major dot minor interpolation of a version string as computed at
the top of the merge loop; an out of range index interpolates as the string
undefined. -/
def newMinorOf (version : JStr) : JStr :=
  ((jsSplit '.' version).get? 0).getD (jstr "undefined")
    ++ '.' :: ((jsSplit '.' version).get? 1).getD (jstr "undefined")

/-- Manifest moved in from the scratch folder for a new identity entry. -/
def movedManifest (tempPkgs : List (JStr × LibraryJson)) (folderName : JStr) : LibraryJson :=
  ((tempPkgs.find? fun p => p.1 == folderName).map Prod.snd).getD default

/-- One iteration of the merge loop of updateLibraries: the first installed
entry whose machine name matches and whose version string starts with the
major dot minor prefix of the new version decides skipping and removal; the
destination folder name is then cleared and the extracted folder moved in. -/
def processNewIdentity (tempPkgs : List (JStr × LibraryJson))
    (libs : List (JStr × LibraryJson)) (localMapping : List IdentityEntry)
    (newIdentity : IdentityEntry) : List (JStr × LibraryJson) :=
  let newVersion := newIdentity.version
  let newVersionMinor := newMinorOf newVersion
  let localIdentity := localMapping.find? fun item =>
    item.machineName == newIdentity.machineName
      && jsStartsWith item.version newVersionMinor
  match localIdentity with
  | some li =>
    if compareVersions newVersion li.version = 0 then libs
    else
      let libs1 :=
        if isNewerPatchVersion li.version newVersion then
          libs.filter fun p => p.1 ≠ li.folderName
        else libs
      let libs2 :=
        if libs1.any fun p => p.1 == newIdentity.folderName then
          libs1.filter fun p => p.1 ≠ newIdentity.folderName
        else libs1
      libs2 ++ [(newIdentity.folderName, movedManifest tempPkgs newIdentity.folderName)]
  | none =>
    let libs2 :=
      if libs.any fun p => p.1 == newIdentity.folderName then
        libs.filter fun p => p.1 ≠ newIdentity.folderName
      else libs
    libs2 ++ [(newIdentity.folderName, movedManifest tempPkgs newIdentity.folderName)]

/-- Model of updateLibraries from src/models/importer.js: the local identity
mapping is computed once and kept across iterations while the installed
folder list is threaded through. -/
def updateLibraries (tempPkgs : List (JStr × LibraryJson))
    (libs : List (JStr × LibraryJson)) (newMapping : List IdentityEntry)
    (localMapping : List IdentityEntry) : List (JStr × LibraryJson) :=
  newMapping.foldl (fun acc n => processNewIdentity tempPkgs acc localMapping n) libs

/-- Input accepted by Importer.import: a file path (with the outcome of
validateFilePath precomputed as pathOk), a blob, or any other value. -/
inductive ImportInput where
  | str (pathOk : Bool) (zip : ZipArchive)
  | blob (zip : ZipArchive)
  | other

/-- Observable outcome of one import call: the returned boolean, the final
installed folder list, whether a scratch directory was created, and whether
one remains afterwards. -/
structure ImportResult where
  ok : Bool
  libs : List (JStr × LibraryJson)
  scratchCreated : Bool
  scratchRemains : Bool
deriving DecidableEq, Repr

/-- Extraction and merge stage shared by both archive sources: zip slip
validation, then the symbolic link walk, then the merge; any thrown error is
caught by import, which removes the scratch directory and returns false. -/
def runExtractAndMerge (scratch : List JStr) (libs : List (JStr × LibraryJson))
    (zip : ZipArchive) : ImportResult :=
  match validateZipEntries scratch zip.entryNames with
  | .error _ => ⟨false, libs, true, false⟩
  | .ok _ =>
    if zip.hasSymlink then ⟨false, libs, true, false⟩
    else
      let newMapping := getIdentityMapping zip.packages
      let localMapping := getIdentityMapping libs
      ⟨true, updateLibraries zip.packages libs newMapping localMapping, true, false⟩

/-- Model of Importer.import: inputs that are neither string nor blob return
false before any scratch directory exists; a string source failing the file
path validation aborts after scratch creation; otherwise the archive is
extracted and merged, the scratch directory always being removed. -/
def importModel (tempSegs : List JStr) (scratchName : JStr)
    (libs : List (JStr × LibraryJson)) (input : ImportInput) : ImportResult :=
  match input with
  | .other => ⟨false, libs, false, false⟩
  | .str pathOk zip =>
    if !pathOk then ⟨false, libs, true, false⟩
    else runExtractAndMerge (tempSegs ++ [scratchName]) libs zip
  | .blob zip => runExtractAndMerge (tempSegs ++ [scratchName]) libs zip

/-! ## Concrete stores used by witnesses and counterexamples -/

/-- Package A 1.0.0 depending on B 1.0. -/
def libA : LibraryJson :=
  { machineName := jstr "A", majorVersion := 1, minorVersion := 0, patchVersion := 0,
    runnable := 1, preloadedDependencies := [⟨jstr "B", 1, 0⟩] }

/-- Package B 1.0.0 depending on A 1.0. -/
def libB : LibraryJson :=
  { machineName := jstr "B", majorVersion := 1, minorVersion := 0, patchVersion := 0,
    runnable := 1, preloadedDependencies := [⟨jstr "A", 1, 0⟩] }

/-- Store holding the dependency cycle between A and B. -/
def cycleStore : Libraries := { data := [libA, libB] }

/-- Root package of the conflict counterexample: its manifest requires
H5P.C 1.0 and its semantics document offers the option H5P.C 1.0.3. -/
def rootLib : LibraryJson :=
  { machineName := jstr "Root", majorVersion := 1, minorVersion := 0, patchVersion := 0,
    runnable := 1, preloadedDependencies := [⟨jstr "H5P.C", 1, 0⟩] }

/-- Store of the conflict counterexample. -/
def conflictStore : Libraries :=
  { data := [rootLib]
    folders := [jstr "Root-1.0"]
    semanticsFiles := [(jstr "Root-1.0",
      .obj (.cons (jstr "options") (.arr (.cons (.str (jstr "H5P.C 1.0.3")) .nil)) .nil))] }

/-- Conflict detection example of the specification: the root requires A and
B, A requires C 1.0 and B requires C 2.0, everything installed. -/
def exRoot : LibraryJson :=
  { machineName := jstr "Root", majorVersion := 1, minorVersion := 0, patchVersion := 0,
    runnable := 1, preloadedDependencies := [⟨jstr "A", 1, 0⟩, ⟨jstr "B", 2, 0⟩] }

def exA : LibraryJson :=
  { machineName := jstr "A", majorVersion := 1, minorVersion := 0, patchVersion := 0,
    runnable := 1, preloadedDependencies := [⟨jstr "C", 1, 0⟩] }

def exB : LibraryJson :=
  { machineName := jstr "B", majorVersion := 2, minorVersion := 0, patchVersion := 0,
    runnable := 1, preloadedDependencies := [⟨jstr "C", 2, 0⟩] }

def exC1 : LibraryJson :=
  { machineName := jstr "C", majorVersion := 1, minorVersion := 0, patchVersion := 0,
    runnable := 0 }

def exC2 : LibraryJson :=
  { machineName := jstr "C", majorVersion := 2, minorVersion := 0, patchVersion := 0,
    runnable := 0 }

/-- Store of the specification conflict example; the folders match the
installed minor lines, as the directory layout invariant requires. -/
def specConflictStore : Libraries :=
  { data := [exRoot, exA, exB, exC1, exC2]
    folders := [jstr "Root-1.0", jstr "A-1.0", jstr "B-2.0", jstr "C-1.0", jstr "C-2.0"] }

/-- Two minor lines of X, the newer one scanned first. -/
def libX20 : LibraryJson :=
  { machineName := jstr "X", majorVersion := 2, minorVersion := 0, patchVersion := 0, runnable := 1 }

def libX10 : LibraryJson :=
  { machineName := jstr "X", majorVersion := 1, minorVersion := 0, patchVersion := 0, runnable := 1 }

/-- Store exposing the latest version resolution defect of getLibraryJson. -/
def latestBugStore : Libraries :=
  { data := [libX20, libX10], folders := [jstr "X-2.0", jstr "X-1.0"] }

/-- Installed manifest X 1.1.0 carrying the old title. -/
def jOld : LibraryJson :=
  { machineName := jstr "X", majorVersion := 1, minorVersion := 1, patchVersion := 0,
    runnable := 1, title := jstr "old" }

/-- Imported manifest X 1.1.0 carrying a new title, identical version. -/
def jNew : LibraryJson :=
  { machineName := jstr "X", majorVersion := 1, minorVersion := 1, patchVersion := 0,
    runnable := 1, title := jstr "new" }

/-- Installed manifest X 1.10.0, whose version string starts with 1.1. -/
def jTen : LibraryJson :=
  { machineName := jstr "X", majorVersion := 1, minorVersion := 10, patchVersion := 0,
    runnable := 1 }

/-- Installed folder list of the merge counterexample, the 1.10 line scanned
first. -/
def mergeLibs : List (JStr × LibraryJson) := [(jstr "X-1.10", jTen), (jstr "X-1.1", jOld)]

/-- Extracted packages of the merge counterexample. -/
def mergeTemp : List (JStr × LibraryJson) := [(jstr "X-1.1", jNew)]

/-! ## Support lemmas -/

theorem compareParts_self (xs : List (Option Int)) : compareParts xs xs = 0 := by
  induction xs with
  | nil => rfl
  | cons x xs ih => simp [compareParts, ih]

theorem decompose_no_space (u : JStr) (h : ∀ c ∈ u, c ≠ ' ') :
    decomposeUberName u =
      ⟨match u with | [] => none | _ => some u, none, none, none⟩ := by
  have hs : jsSplit ' ' u = [u] := jsSplit_no_sep ' ' u h
  cases u with
  | nil => rfl
  | cons c rest =>
    simp only [decomposeUberName, hs]
    rfl

theorem decompose_two_tokens (mn ver : JStr) (hmn : mn ≠ []) (h1 : ∀ c ∈ mn, c ≠ ' ')
    (h2 : ∀ c ∈ ver, c ≠ ' ') :
    decomposeUberName (mn ++ ' ' :: ver) =
      ⟨some mn, (jsSplit '.' ver).get? 0, (jsSplit '.' ver).get? 1, (jsSplit '.' ver).get? 2⟩ := by
  have hs2 : jsSplit ' ' (mn ++ ' ' :: ver) = [mn, ver] := by
    rw [jsSplit_append_sep ' ' mn ver h1, jsSplit_no_sep ' ' ver h2]
  cases mn with
  | nil => exact absurd rfl hmn
  | cons c rest =>
    simp only [decomposeUberName, hs2]
    rfl

theorem ver_no_space_two (a b : Nat) :
    ∀ c ∈ natDigits a ++ '.' :: natDigits b, c ≠ ' ' := by
  intro c hc
  rcases List.mem_append.mp hc with h | h
  · exact natDigits_no_space a c h
  · rcases List.mem_cons.mp h with h | h
    · subst h; decide
    · exact natDigits_no_space b c h

theorem ver_no_space_three (a b c0 : Nat) :
    ∀ c ∈ natDigits a ++ '.' :: (natDigits b ++ '.' :: natDigits c0), c ≠ ' ' := by
  intro c hc
  rcases List.mem_append.mp hc with h | h
  · exact natDigits_no_space a c h
  · rcases List.mem_cons.mp h with h | h
    · subst h; decide
    · exact ver_no_space_two b c0 c h

theorem split_dot_two (a b : Nat) :
    jsSplit '.' (natDigits a ++ '.' :: natDigits b) = [natDigits a, natDigits b] := by
  rw [jsSplit_append_sep '.' _ _ (natDigits_no_dot a),
    jsSplit_no_sep '.' _ (natDigits_no_dot b)]

theorem split_dot_three (a b c : Nat) :
    jsSplit '.' (natDigits a ++ '.' :: (natDigits b ++ '.' :: natDigits c))
      = [natDigits a, natDigits b, natDigits c] := by
  rw [jsSplit_append_sep '.' _ _ (natDigits_no_dot a), split_dot_two]

/-! ## Claim theorems, first batch -/

/-- C8: compareVersions is reflexive on every string, and missing components
read as zero independently of string length: 1.2.0 equals 1.2, 1.3.0 is
above 1.2.9, and 1.2 is strictly below 1.2.1. -/
theorem compareVersions_claim :
    (∀ v : JStr, compareVersions v v = 0)
    ∧ compareVersions (jstr "1.2.0") (jstr "1.2") = 0
    ∧ compareVersions (jstr "1.3.0") (jstr "1.2.9") = 1
    ∧ compareVersions (jstr "1.2") (jstr "1.2.1") = -1 := by
  refine ⟨?_, by decide, by decide, by decide⟩
  intro v
  exact compareParts_self _

/-- C9: decomposeUberName keeps missing version fields null, never zero, and
round trips the formatted uber name of a space free machine name with
numeric components, both without and with a patch component. -/
theorem decomposeUberName_claim :
    ∀ (mn : JStr) (a b c : Nat), mn ≠ [] → (∀ ch ∈ mn, ch ≠ ' ') →
      ((∀ u : JStr, (∀ ch ∈ u, ch ≠ ' ') → (decomposeUberName u).majorVersion = none
          ∧ (decomposeUberName u).minorVersion = none
          ∧ (decomposeUberName u).patchVersion = none)
       ∧ decomposeUberName (mn ++ ' ' :: (natDigits a ++ '.' :: natDigits b))
           = ⟨some mn, some (natDigits a), some (natDigits b), none⟩
       ∧ decomposeUberName (mn ++ ' ' :: (natDigits a ++ '.' :: (natDigits b ++ '.' :: natDigits c)))
           = ⟨some mn, some (natDigits a), some (natDigits b), some (natDigits c)⟩) := by
  intro mn a b c hmn hsp
  refine ⟨?_, ?_, ?_⟩
  · intro u hu
    rw [decompose_no_space u hu]
    cases u <;> simp
  · rw [decompose_two_tokens mn _ hmn hsp (ver_no_space_two a b), split_dot_two]
    rfl
  · rw [decompose_two_tokens mn _ hmn hsp (ver_no_space_three a b c), split_dot_three]
    rfl

/-- Witness for C9 at machine name H5P.Foo with versions 1.2 and 1.2.3. -/
theorem decomposeUberName_claim_witness :
    decomposeUberName (jstr "H5P.Foo 1.2")
        = ⟨some (jstr "H5P.Foo"), some (jstr "1"), some (jstr "2"), none⟩
    ∧ decomposeUberName (jstr "H5P.Foo 1.2.3")
        = ⟨some (jstr "H5P.Foo"), some (jstr "1"), some (jstr "2"), some (jstr "3")⟩ := by
  have h := decomposeUberName_claim (jstr "H5P.Foo") 1 2 3 (by decide) (by decide)
  refine ⟨?_, ?_⟩
  · have := h.2.1
    rwa [show jstr "H5P.Foo" ++ ' ' :: (natDigits 1 ++ '.' :: natDigits 2) = jstr "H5P.Foo 1.2"
        by decide,
      show natDigits 1 = jstr "1" by decide, show natDigits 2 = jstr "2" by decide] at this
  · have := h.2.2
    rwa [show jstr "H5P.Foo" ++ ' ' :: (natDigits 1 ++ '.' :: (natDigits 2 ++ '.' :: natDigits 3))
        = jstr "H5P.Foo 1.2.3" by decide,
      show natDigits 1 = jstr "1" by decide, show natDigits 2 = jstr "2" by decide,
      show natDigits 3 = jstr "3" by decide] at this

/-- C10: an import input that is neither a string nor a blob returns false
at once, creating no scratch directory and leaving the installed folder list
untouched. -/
theorem import_other_claim :
    ∀ (tempSegs : List JStr) (scratchName : JStr) (libs : List (JStr × LibraryJson)),
      importModel tempSegs scratchName libs .other
        = ⟨false, libs, false, false⟩ := by
  intro tempSegs scratchName libs
  rfl

/-- Validation aborts with a path traversal error whenever some entry
resolves outside the extraction directory. -/
theorem validateZipEntries_error (extractTo : List JStr) :
    ∀ (entries : List JStr),
      (∃ e ∈ entries, insideSegs extractTo (jsResolveSegs extractTo e) = false) →
      validateZipEntries extractTo entries = .error .pathTraversal := by
  intro entries
  induction entries with
  | nil => rintro ⟨e, he, _⟩; simp at he
  | cons e rest ih =>
    rintro ⟨e0, he0, hbad⟩
    by_cases hgood : insideSegs extractTo (jsResolveSegs extractTo e) = true
    · have : e0 ∈ rest := by
        rcases List.mem_cons.mp he0 with h | h
        · subst h; rw [hgood] at hbad; cases hbad
        · exact h
      simp only [validateZipEntries, hgood, if_pos]
      exact ih ⟨e0, this, hbad⟩
    · simp only [validateZipEntries]
      rw [if_neg (by simpa using hgood)]

/-- C1: an archive holding an entry whose resolved target escapes the
scratch directory makes import return false, leaves the installed folder
list untouched, and leaves no scratch directory behind, for both archive
sources. -/
theorem import_traversal_claim :
    ∀ (tempSegs : List JStr) (scratchName : JStr) (libs : List (JStr × LibraryJson))
      (zip : ZipArchive) (pathOk : Bool),
      (∃ e ∈ zip.entryNames,
        insideSegs (tempSegs ++ [scratchName])
          (jsResolveSegs (tempSegs ++ [scratchName]) e) = false) →
      ∀ r ∈ [importModel tempSegs scratchName libs (.str pathOk zip),
             importModel tempSegs scratchName libs (.blob zip)],
        r.ok = false ∧ r.libs = libs ∧ r.scratchRemains = false := by
  intro tempSegs scratchName libs zip pathOk hesc r hr
  have hrun : runExtractAndMerge (tempSegs ++ [scratchName]) libs zip
      = ⟨false, libs, true, false⟩ := by
    unfold runExtractAndMerge
    rw [validateZipEntries_error _ _ hesc]
  have hstr : importModel tempSegs scratchName libs (.str pathOk zip)
      = ⟨false, libs, true, false⟩ := by
    simp only [importModel]
    rw [hrun]
    by_cases hp : pathOk <;> simp [hp]
  have hblob : importModel tempSegs scratchName libs (.blob zip)
      = ⟨false, libs, true, false⟩ := by
    simp only [importModel]
    rw [hrun]
  rcases List.mem_cons.mp hr with h | h
  · subst h
    rw [hstr]
    exact ⟨rfl, rfl, rfl⟩
  · rcases List.mem_cons.mp h with h | h
    · subst h
      rw [hblob]
      exact ⟨rfl, rfl, rfl⟩
    · simp at h

/-- Witness for C1: the canonical attack entry dot dot slash dot dot slash
etc slash passwd is rejected and the store survives unchanged. -/
theorem import_traversal_claim_witness :
    (∃ e ∈ [jstr "../../etc/passwd"],
      insideSegs [jstr "tmp", jstr "t1"]
        (jsResolveSegs [jstr "tmp", jstr "t1"] e) = false)
    ∧ (importModel [jstr "tmp"] (jstr "t1") mergeLibs
        (.blob ⟨[jstr "../../etc/passwd"], [(jstr "E-1.0", jNew)], false⟩)).ok = false
    ∧ (importModel [jstr "tmp"] (jstr "t1") mergeLibs
        (.blob ⟨[jstr "../../etc/passwd"], [(jstr "E-1.0", jNew)], false⟩)).libs = mergeLibs
    ∧ (importModel [jstr "tmp"] (jstr "t1") mergeLibs
        (.blob ⟨[jstr "../../etc/passwd"], [(jstr "E-1.0", jNew)], false⟩)).scratchRemains
        = false := by
  refine ⟨⟨jstr "../../etc/passwd", by decide, by decide⟩, ?_⟩
  have h := import_traversal_claim [jstr "tmp"] (jstr "t1") mergeLibs
    ⟨[jstr "../../etc/passwd"], [(jstr "E-1.0", jNew)], false⟩ true
    ⟨jstr "../../etc/passwd", by decide, by decide⟩
    (importModel [jstr "tmp"] (jstr "t1") mergeLibs
      (.blob ⟨[jstr "../../etc/passwd"], [(jstr "E-1.0", jNew)], false⟩))
    (by simp)
  exact h

/-- C6: evaluation of the latest version defect.  The store installs X 2.0.0
before X 1.0.0 in scan order, both folders exist, yet getFolderPath for
X 2.0 resolves to the folder of the 1.0 line: the reduce inside
getLibraryJson reads a version property manifests do not carry, so the last
scanned manifest with a version above 0.0.0 wins instead of the latest. -/
theorem getFolderPath_claim_bug :
    getFolderPath latestBugStore (jstr "X 2.0") = .ok (some (jstr "X-1.0"))
    ∧ libX20 ∈ latestBugStore.data
    ∧ verString libX20 = jstr "2.0.0"
    ∧ verString libX10 = jstr "1.0.0"
    ∧ compareVersions (verString libX20) (verString libX10) = 1
    ∧ jstr "X-2.0" ∈ latestBugStore.folders := by
  refine ⟨by decide, by decide, by decide, by decide, by decide, by decide⟩

/-! ## C4: the merge replacement policy -/

theorem clear_slot (f : JStr) (l : List (JStr × LibraryJson)) :
    (if l.any fun p => p.1 == f then l.filter fun p => p.1 ≠ f else l)
      = l.filter fun p => p.1 ≠ f := by
  by_cases h : (l.any fun p => p.1 == f) = true
  · rw [if_pos h]
  · rw [if_neg h]
    symm
    rw [List.filter_eq_self]
    intro p hp
    simp only [List.any_eq_true, beq_iff_eq, not_exists] at h
    push_neg at h
    simpa using h p hp

/-- C4 counterexample: the installed package X 1.1.0 shares machine name,
minor line, and the exact version with the extracted package, so the claim
requires a skip; but the prefix match inside the merge finds the installed
X 1.10.0 first, whose version string also starts with 1.1, so the comparison
runs against 1.10.0 and the installed X 1.1.0 directory is replaced by the
extracted copy instead of being left alone. -/
theorem updateLibraries_claim_counterexample :
    ((jstr "X-1.1", jOld) ∈ mergeLibs
      ∧ jOld.machineName = jNew.machineName
      ∧ verString jOld = verString jNew
      ∧ mergeTemp = [(jstr "X-1.1", jNew)])
    ∧ updateLibraries mergeTemp mergeLibs (getIdentityMapping mergeTemp)
        (getIdentityMapping mergeLibs)
      = [(jstr "X-1.10", jTen), (jstr "X-1.1", jNew)]
    ∧ updateLibraries mergeTemp mergeLibs (getIdentityMapping mergeTemp)
        (getIdentityMapping mergeLibs) ≠ mergeLibs := by
  exact ⟨⟨by decide, by decide, by decide, by decide⟩, by decide, by decide⟩

/-- C4 amended: the merge policy is keyed on the first entry of the local
identity mapping whose machine name matches and whose full version string
has the major dot minor string of the new version as a string prefix, a
match that can also select a different minor line such as 1.10 for 1.1.
Relative to that matched entry: an identical version skips the package
entirely; a matched older patch of the same minor line has its directory
removed before the move; any other match leaves the matched directory in
place; in the two non skip cases, and also when nothing matches, the
destination folder name is cleared and the extracted folder moved in. -/
theorem updateLibraries_policy_amended :
    ∀ (tempPkgs libs : List (JStr × LibraryJson)) (localMapping : List IdentityEntry)
      (n : IdentityEntry) (li : IdentityEntry),
      (localMapping.find? (fun item =>
          item.machineName == n.machineName
            && jsStartsWith item.version (newMinorOf n.version)) = some li →
        ((compareVersions n.version li.version = 0 →
            processNewIdentity tempPkgs libs localMapping n = libs)
         ∧ (compareVersions n.version li.version ≠ 0 →
              isNewerPatchVersion li.version n.version = true →
              processNewIdentity tempPkgs libs localMapping n
                = ((libs.filter fun p => p.1 ≠ li.folderName).filter fun p => p.1 ≠ n.folderName)
                  ++ [(n.folderName, movedManifest tempPkgs n.folderName)])
         ∧ (compareVersions n.version li.version ≠ 0 →
              isNewerPatchVersion li.version n.version = false →
              processNewIdentity tempPkgs libs localMapping n
                = (libs.filter fun p => p.1 ≠ n.folderName)
                  ++ [(n.folderName, movedManifest tempPkgs n.folderName)])))
      ∧ (localMapping.find? (fun item =>
            item.machineName == n.machineName
              && jsStartsWith item.version (newMinorOf n.version)) = none →
          processNewIdentity tempPkgs libs localMapping n
            = (libs.filter fun p => p.1 ≠ n.folderName)
              ++ [(n.folderName, movedManifest tempPkgs n.folderName)]) := by
  intro tempPkgs libs localMapping n li
  constructor
  · intro hfind
    refine ⟨?_, ?_, ?_⟩
    · intro hcmp
      simp only [processNewIdentity, hfind, hcmp, if_pos]
    · intro hcmp hnew
      simp only [processNewIdentity, hfind]
      rw [if_neg hcmp]
      simp only [hnew, if_pos, clear_slot]
    · intro hcmp hnew
      simp only [processNewIdentity, hfind]
      rw [if_neg hcmp, hnew]
      simp only [Bool.false_eq_true, if_false]
      rw [clear_slot]
  · intro hfind
    simp only [processNewIdentity, hfind, clear_slot]

/-- Witness for C4 amended, at the older patch case: X 1.1.3 is installed in
X-1.1 and the archive carries X 1.1.5 for the same folder name; the
installed directory is removed and the extracted folder moved in. -/
theorem updateLibraries_policy_amended_witness :
    processNewIdentity
        [(jstr "X-1.1", { jNew with patchVersion := 5 })]
        [(jstr "X-1.1", { jOld with patchVersion := 3 })]
        [⟨jstr "X", jstr "X-1.1", jstr "1.1.3"⟩]
        ⟨jstr "X", jstr "X-1.1", jstr "1.1.5"⟩
      = [(jstr "X-1.1", { jNew with patchVersion := 5 })] := by
  have h := (updateLibraries_policy_amended
    [(jstr "X-1.1", { jNew with patchVersion := 5 })]
    [(jstr "X-1.1", { jOld with patchVersion := 3 })]
    [⟨jstr "X", jstr "X-1.1", jstr "1.1.3"⟩]
    ⟨jstr "X", jstr "X-1.1", jstr "1.1.5"⟩
    ⟨jstr "X", jstr "X-1.1", jstr "1.1.3"⟩).1 (by decide)
  rw [h.2.1 (by decide) (by decide)]
  decide

/-! ## C5: lookups on missing identities -/

/-- C5 counterexample: a bare machine name that is not installed makes
getUbernameForMinorVersion, and with it getDependencies for every kind, read
majorVersion from an undefined manifest and throw, instead of returning an
empty result. -/
theorem getDependencies_claim_counterexample :
    getUbernameForMinorVersion { data := [] } (jstr "Missing") = .error .typeError
    ∧ getDependencies { data := [] } (jstr "Missing") .all = .error .typeError
    ∧ getDependencies { data := [] } (jstr "Missing") .mandatory = .error .typeError
    ∧ getDependencies { data := [] } (jstr "Missing") .optional = .error .typeError := by
  exact ⟨by decide, by decide, by decide, by decide⟩

theorem machineName_spec (u : JStr) :
    ∀ m, (decomposeUberName u).machineName = some m →
      m ≠ [] ∧ (∀ c ∈ m, c ≠ ' ') := by
  intro m h
  simp only [decomposeUberName] at h
  cases hh : (jsSplit ' ' u).head? with
  | none => rw [hh] at h; cases h
  | some s =>
    rw [hh] at h
    cases s with
    | nil => simp at h
    | cons c rest =>
      simp only at h
      cases h
      have hmem : (c :: rest) ∈ jsSplit ' ' u := by
        cases hsplit : jsSplit ' ' u with
        | nil => rw [hsplit] at hh; cases hh
        | cons a as =>
          rw [hsplit] at hh
          simp only [List.head?_cons, Option.some.injEq] at hh
          rw [hh]
          exact List.mem_cons_self _ _
      exact ⟨by simp, no_sep_of_mem_jsSplit hmem⟩

theorem getLibraryJson_not_installed (st : Libraries) (u : JStr) (ex : Bool)
    (h : ∀ l ∈ st.data, some l.machineName ≠ (decomposeUberName u).machineName) :
    getLibraryJson st u ex = none := by
  have hfindn : (st.data.find? fun l =>
      (decomposeUberName u).machineName == some l.machineName
        && (decomposeUberName u).majorVersion == some (natDigits l.majorVersion)
        && (decomposeUberName u).minorVersion == some (natDigits l.minorVersion)) = none := by
    apply List.find?_eq_none.mpr
    intro l hl hc
    rw [Bool.and_eq_true, Bool.and_eq_true] at hc
    exact (h l hl) ((beq_iff_eq.mp hc.1.1).symm ▸ rfl)
  have hfilter : (st.data.filter fun l =>
      (decomposeUberName u).machineName == some l.machineName) = [] := by
    apply List.filter_eq_nil_iff.mpr
    intro l hl hc
    exact (h l hl) ((beq_iff_eq.mp hc).symm ▸ rfl)
  by_cases hb : (truthy (decomposeUberName u).majorVersion
      && truthy (decomposeUberName u).minorVersion) = true
  · simp [getLibraryJson, hfindn, hfilter, hb]
  · have hb2 : (truthy (decomposeUberName u).majorVersion
        && truthy (decomposeUberName u).minorVersion) = false := by
      revert hb
      cases truthy (decomposeUberName u).majorVersion && truthy (decomposeUberName u).minorVersion
      · simp
      · simp
    simp [getLibraryJson, hfindn, hfilter, hb2]

/-- C5 amended: for every lookup whose identity carries a non null machine
name and truthy major and minor components, getUbernameForMinorVersion and
getDependencies never throw, and when no manifest of that machine name is
installed getDependencies returns the empty set for every dependency kind.
The unamended claim fails only for identities without a version part, whose
minor line normalization throws on a missing manifest. -/
theorem getDependencies_amended :
    ∀ (st : Libraries) (u : JStr) (type : DepType),
      truthy (decomposeUberName u).majorVersion = true →
      truthy (decomposeUberName u).minorVersion = true →
      (decomposeUberName u).machineName ≠ none →
      ((∃ s, getUbernameForMinorVersion st u = .ok s)
       ∧ (∃ r, getDependencies st u type = .ok r)
       ∧ ((∀ l ∈ st.data, some l.machineName ≠ (decomposeUberName u).machineName) →
            getDependencies st u type = .ok [])) := by
  intro st u type hmaj hmin hmn
  obtain ⟨m, hm⟩ : ∃ m, (decomposeUberName u).machineName = some m := by
    cases hc : (decomposeUberName u).machineName
    · exact absurd hc hmn
    · exact ⟨_, rfl⟩
  have hnorm : norm1FormOf u = some (jsShowOptStr (decomposeUberName u).machineName
      ++ ' ' :: ((decomposeUberName u).majorVersion.getD []
        ++ '.' :: (decomposeUberName u).minorVersion.getD [])) := by
    simp [norm1FormOf, hmaj, hmin]
  have hub : getUbernameForMinorVersion st u
      = .ok (jsShowOptStr (decomposeUberName u).machineName
          ++ ' ' :: ((decomposeUberName u).majorVersion.getD []
            ++ '.' :: (decomposeUberName u).minorVersion.getD [])) := by
    unfold getUbernameForMinorVersion
    rw [hnorm]
  have hsem : ∃ v, getSemanticsJson st u = .ok v := by
    simp only [getSemanticsJson, getLibraryJsonOfOpt, hm]
    cases getLibraryJson st m with
    | none => exact ⟨none, rfl⟩
    | some lib =>
      simp only []
      split
      · exact ⟨_, rfl⟩
      · exact ⟨_, rfl⟩
  obtain ⟨v, hv⟩ := hsem
  refine ⟨⟨_, hub⟩, ?_, ?_⟩
  · unfold getDependencies
    split
    · rename_i e heq
      rw [hub] at heq
      cases heq
    · split
      · exact ⟨[], rfl⟩
      · split
        · split
          · rename_i heq2
            rw [hv] at heq2
            cases heq2
          · exact ⟨_, rfl⟩
          · exact ⟨_, rfl⟩
        · exact ⟨_, rfl⟩
  · intro hnotin
    have hexact : getLibraryJson st u true = none := getLibraryJson_not_installed st u true hnotin
    have hm2 : getLibraryJson st m = none := by
      apply getLibraryJson_not_installed
      intro l hl
      obtain ⟨hne, hns⟩ := machineName_spec u m hm
      rw [decompose_no_space m hns]
      cases m with
      | nil => exact absurd rfl hne
      | cons c rest =>
        simp only
        have := hnotin l hl
        rw [hm] at this
        exact this
    have hsemnone : getSemanticsJson st u = .ok none := by
      simp only [getSemanticsJson, getLibraryJsonOfOpt, hm, hm2]
    simp only [getDependencies, hub]
    by_cases hmand : type = .all ∨ type = .mandatory
    · rw [if_pos hmand, hexact]
    · rw [if_neg hmand]
      have hopt : type = .all ∨ type = .optional := by
        cases type
        · exact Or.inl rfl
        · exact absurd (Or.inr rfl) hmand
        · exact Or.inr rfl
      show (if type = DepType.all ∨ type = DepType.optional then
          match getSemanticsJson st u with
          | Except.error e => Except.error e
          | Except.ok none => Except.ok (jsSetDedup [])
          | Except.ok (some sem) => Except.ok (jsSetDedup ([] ++ findH5PDepsSem sem))
        else Except.ok (jsSetDedup [])) = Except.ok []
      rw [if_pos hopt, hsemnone]
      rfl

/-- Witness for C5 amended: the uninstalled identity Q 1.0 resolves to the
empty dependency set on the cycle store without throwing. -/
theorem getDependencies_amended_witness :
    getDependencies cycleStore (jstr "Q 1.0") .all = .ok [] := by
  have h := getDependencies_amended cycleStore (jstr "Q 1.0") .all
    (by decide) (by decide) (by decide)
  exact h.2.2 (by decide)

/-! ## C3: conflict detection -/

/-- The total dependency list is free of duplicates: every return path hands
back either the deduplicated accumulator or an incoming accumulator that was
already deduplicated. -/
theorem compileTotalDependencyList_nodup (st : Libraries) :
    ∀ (fuel : Nat) (u : JStr) (checked deps : List JStr), deps.Nodup →
      ∀ r, compileTotalDependencyList st fuel u checked deps = .ok r → r.Nodup := by
  intro fuel
  induction fuel with
  | zero =>
    intro u checked deps hnd r h
    cases h
  | succ fuel ih =>
    intro u checked deps hnd r h
    simp only [compileTotalDependencyList] at h
    split at h
    · cases h
    · split at h
      · cases h
        exact hnd
      · split at h
        · cases h
        · split at h
          · cases h
            exact nodup_jsSetDedup _
          · split at h
            · cases h
            · cases h
              exact nodup_jsSetDedup _

theorem count_map_eq_length_filter {α β : Type} [BEq β] [LawfulBEq β] (l : List α)
    (f : α → β) (m : β) : (l.map f).count m = (l.filter fun a => f a == m).length := by
  induction l with
  | nil => rfl
  | cons x xs ih =>
    cases h : f x == m <;>
      simp [List.count_cons, List.filter_cons, h, ih]

/-- C3 counterexample: the machine name H5P.C occurs in the closure once as
the manifest dependency H5P.C 1.0 and once as the configuration embedded
option H5P.C 1.0.3; both carry the single distinct major dot minor 1.0, yet
the check reports a conflict for H5P.C, because it counts distinct closure
strings rather than distinct minor versions. -/
theorem checkForConflictingDependencies_claim_counterexample :
    compileTotalDependencyList conflictStore 10 (jstr "Root 1.0") [] []
      = .ok [jstr "Root 1.0", jstr "H5P.C 1.0", jstr "H5P.C 1.0.3"]
    ∧ jsSetDedup (((
        [jstr "Root 1.0", jstr "H5P.C 1.0", jstr "H5P.C 1.0.3"].filter
          fun e => entryMachineName e == jstr "H5P.C")).map entryVersion)
      = [jstr "1.0"]
    ∧ checkForConflictingDependencies conflictStore 10 (jstr "Root 1.0")
      = .ok [(jstr "H5P.C", [jstr "1.0", jstr "1.0"])] := by
  exact ⟨by decide, by decide, by decide⟩

/-- C3 amended: the conflict check reports exactly the machine names that
occur in more than one entry of the total dependency list, each paired with
the major dot minor of every such entry.  Because configuration embedded
uber names may carry a patch component, two distinct entries can share one
major dot minor; whenever distinct entries of a machine name always carry
distinct major dot minor pairs, the report is exactly the machine names with
more than one distinct major dot minor across the closure, as the claim
states. -/
theorem checkForConflictingDependencies_amended :
    ∀ (st : Libraries) (fuel : Nat) (root : JStr) (closure : List JStr)
      (rep : List (JStr × List JStr)),
      compileTotalDependencyList st fuel root [] [] = .ok closure →
      checkForConflictingDependencies st fuel root = .ok rep →
      ((∀ m, m ∈ rep.map Prod.fst ↔ 1 < (closure.map entryMachineName).count m)
       ∧ (∀ m vs, (m, vs) ∈ rep →
            vs = (closure.filter fun e => entryMachineName e == m).map entryVersion)
       ∧ ((∀ e1 ∈ closure, ∀ e2 ∈ closure,
             entryMachineName e1 = entryMachineName e2 →
             entryVersion e1 = entryVersion e2 → e1 = e2) →
           ∀ m, (m ∈ rep.map Prod.fst ↔
             1 < (jsSetDedup ((closure.filter fun e =>
               entryMachineName e == m).map entryVersion)).length))) := by
  intro st fuel root closure rep hclosure hrep
  simp only [checkForConflictingDependencies, hclosure] at hrep
  have hpairsfst : ((closure.map fun dep => (entryMachineName dep, entryVersion dep)).map
      Prod.fst) = closure.map entryMachineName := by
    rw [List.map_map]
    rfl
  have hcount : ∀ m, ((closure.map fun dep => (entryMachineName dep, entryVersion dep)).map
      Prod.fst).count m = (closure.map entryMachineName).count m := by
    intro m
    rw [hpairsfst]
  have hmain : ∀ m, m ∈ rep.map Prod.fst ↔ 1 < (closure.map entryMachineName).count m := by
    intro m
    split at hrep
    · rename_i hemp
      cases hrep
      simp only [List.map_nil, List.not_mem_nil, false_iff, not_lt]
      rw [List.isEmpty_iff] at hemp
      by_contra hcountm
      push_neg at hcountm
      have hex : ∃ e ∈ (closure.map fun dep => (entryMachineName dep, entryVersion dep)),
          e.1 = m := by
        have hpos : 0 < (closure.map entryMachineName).count m := by omega
        rw [← hpairsfst] at hpos
        have hmem := List.count_pos_iff.mp hpos
        obtain ⟨e, he, hfe⟩ := List.mem_map.mp hmem
        exact ⟨e, he, hfe⟩
      obtain ⟨e, he, hfe⟩ := hex
      have : e ∈ (closure.map fun dep => (entryMachineName dep, entryVersion dep)).filter
          fun e => decide (1 < ((closure.map fun dep =>
            (entryMachineName dep, entryVersion dep)).map Prod.fst).count e.1) := by
        rw [List.mem_filter]
        refine ⟨he, ?_⟩
        rw [decide_eq_true_eq, hcount, hfe]
        omega
      rw [hemp] at this
      cases this
    · rename_i hemp
      cases hrep
      constructor
      · intro hm
        rw [List.map_map] at hm
        obtain ⟨k, hk, hkm⟩ := List.mem_map.mp hm
        have hk2 := (mem_jsSetDedup _).mp hk
        obtain ⟨e, he, hfe⟩ := List.mem_map.mp hk2
        have := List.mem_filter.mp he
        rw [decide_eq_true_eq, hcount] at this
        have heq : e.1 = m := by
          simpa using hkm ▸ hfe
        rw [heq] at this
        exact this.2
      · intro hcountm
        have hex : ∃ e ∈ (closure.map fun dep => (entryMachineName dep, entryVersion dep)),
            e.1 = m := by
          have hpos : 0 < (closure.map entryMachineName).count m := by omega
          rw [← hpairsfst] at hpos
          have hmem := List.count_pos_iff.mp hpos
          obtain ⟨e, he, hfe⟩ := List.mem_map.mp hmem
          exact ⟨e, he, hfe⟩
        obtain ⟨e, he, hfe⟩ := hex
        have hedup : e ∈ (closure.map fun dep =>
            (entryMachineName dep, entryVersion dep)).filter
            fun e => decide (1 < ((closure.map fun dep =>
              (entryMachineName dep, entryVersion dep)).map Prod.fst).count e.1) := by
          rw [List.mem_filter]
          refine ⟨he, ?_⟩
          rw [decide_eq_true_eq, hcount, hfe]
          omega
        rw [List.map_map]
        apply List.mem_map.mpr
        refine ⟨m, ?_, rfl⟩
        apply (mem_jsSetDedup _).mpr
        apply List.mem_map.mpr
        exact ⟨e, hedup, hfe⟩
  refine ⟨hmain, ?_, ?_⟩
  · intro m vs hmvs
    have hcm : 1 < (closure.map entryMachineName).count m := by
      apply (hmain m).mp
      exact List.mem_map.mpr ⟨(m, vs), hmvs, rfl⟩
    split at hrep
    · cases hrep
      cases hmvs
    · cases hrep
      obtain ⟨k, _, hkeq⟩ := List.mem_map.mp hmvs
      have hkm : k = m := congrArg Prod.fst hkeq
      subst hkm
      have hvs : vs = (((closure.map fun dep =>
          (entryMachineName dep, entryVersion dep)).filter
          fun e => decide (1 < ((closure.map fun dep =>
            (entryMachineName dep, entryVersion dep)).map Prod.fst).count e.1)).filter
          fun e => e.1 == k).map Prod.snd := by
        have := congrArg Prod.snd hkeq
        simpa using this.symm
      rw [hvs]
      have hff : ((closure.map fun dep =>
          (entryMachineName dep, entryVersion dep)).filter
          fun e => decide (1 < ((closure.map fun dep =>
            (entryMachineName dep, entryVersion dep)).map Prod.fst).count e.1)).filter
          (fun e => e.1 == k)
          = (closure.map fun dep => (entryMachineName dep, entryVersion dep)).filter
            fun e => e.1 == k := by
        rw [List.filter_filter]
        apply List.filter_congr
        intro e he
        by_cases hek : e.1 = k
        · have : 1 < ((closure.map fun dep =>
              (entryMachineName dep, entryVersion dep)).map Prod.fst).count e.1 := by
            rw [hcount, hek]
            exact hcm
          simp [hek]
          exact hcm
        · simp [hek]
      rw [hff, List.filter_map, List.map_map]
      rfl
  · intro hinj m
    rw [hmain m]
    have hnodup : closure.Nodup :=
      compileTotalDependencyList_nodup st fuel root [] [] (by simp) closure hclosure
    have hfilnd : (closure.filter fun e => entryMachineName e == m).Nodup :=
      hnodup.filter _
    have hmapnd : ((closure.filter fun e => entryMachineName e == m).map
        entryVersion).Nodup := by
      apply List.Nodup.map_on ?_ hfilnd
      intro x hx y hy hxy
      have hxm := (List.mem_filter.mp hx)
      have hym := (List.mem_filter.mp hy)
      apply hinj x hxm.1 y hym.1 ?_ hxy
      rw [beq_iff_eq] at *
      rw [(by simpa using hxm.2 : entryMachineName x = m),
        (by simpa using hym.2 : entryMachineName y = m)]
    rw [jsSetDedup_of_nodup hmapnd, List.length_map,
      count_map_eq_length_filter closure entryMachineName m]

/-- Witness for C3 amended at the specification example: the root needs A
and B, A needs C 1.0 and B needs C 2.0; the machine name C is reported. -/
theorem checkForConflictingDependencies_amended_witness :
    jstr "C" ∈ ([(jstr "C", [jstr "1.0", jstr "2.0"])] : List (JStr × List JStr)).map
      Prod.fst := by
  have h := checkForConflictingDependencies_amended specConflictStore 10 (jstr "Root 1.0")
    [jstr "Root 1.0", jstr "A 1.0", jstr "B 2.0", jstr "C 1.0", jstr "C 2.0"]
    [(jstr "C", [jstr "1.0", jstr "2.0"])]
    (by decide) (by decide)
  exact (h.1 (jstr "C")).mpr (by decide)

/-! ## C7: the export dependency filter -/

/-- A dependency uber name resolves to an installed manifest exactly when
its machine name component finds any installed manifest, the test the
createExport filter performs. -/
def depInstalled (st : Libraries) (dep : JStr) : Bool :=
  match (decomposeUberName dep).machineName with
  | none => false
  | some m => (getLibraryJson st m).isSome

/-- Directory layout invariant of the store: every installed manifest has
its minor line folder on disk. -/
abbrev WellFormedFolders (st : Libraries) : Prop :=
  ∀ l ∈ st.data,
    (l.machineName ++ '-' :: (natDigits l.majorVersion ++ '.' :: natDigits l.minorVersion))
      ∈ st.folders

theorem latest_foldl_mem :
    ∀ (xs : List LibraryJson) (acc : Option LibraryJson) (l : LibraryJson),
      xs.foldl (fun latest l =>
        match latest with
        | none => some l
        | some _ =>
          if compareVersions (verString l) (jstr "0.0.0") > 0 then some l else latest) acc
        = some l →
      acc = some l ∨ l ∈ xs := by
  intro xs
  induction xs with
  | nil =>
    intro acc l h
    exact Or.inl h
  | cons x rest ih =>
    intro acc l h
    rcases ih _ l h with hacc | hmem
    · cases acc with
      | none =>
        simp only at hacc
        cases hacc
        exact Or.inr (List.mem_cons_self _ _)
      | some a =>
        simp only at hacc
        by_cases hc : compareVersions (verString x) (jstr "0.0.0") > 0
        · rw [if_pos hc] at hacc
          cases hacc
          exact Or.inr (List.mem_cons_self _ _)
        · rw [if_neg hc] at hacc
          exact Or.inl hacc
    · exact Or.inr (List.mem_cons_of_mem _ hmem)

theorem getLibraryJson_spec (st : Libraries) (u : JStr) (ex : Bool) (l : LibraryJson)
    (h : getLibraryJson st u ex = some l) :
    l ∈ st.data ∧ (decomposeUberName u).machineName = some l.machineName := by
  simp only [getLibraryJson] at h
  split at h
  · rename_i lib heq
    cases h
    split at heq
    · have hp := List.find?_some heq
      rw [Bool.and_eq_true, Bool.and_eq_true] at hp
      exact ⟨List.mem_of_find?_eq_some heq, beq_iff_eq.mp hp.1.1⟩
    · cases heq
  · split at h
    · cases h
    · rcases latest_foldl_mem _ none l h with hacc | hmem
      · cases hacc
      · have hmf := List.mem_filter.mp hmem
        exact ⟨hmf.1, beq_iff_eq.mp hmf.2⟩

theorem keptDeps_ok (st : Libraries) :
    ∀ (deps : List JStr), (∀ d ∈ deps, (decomposeUberName d).machineName ≠ none) →
      keptDeps st deps = .ok (deps.filter (depInstalled st)) := by
  intro deps
  induction deps with
  | nil => intro _; rfl
  | cons d rest ih =>
    intro h
    obtain ⟨m, hm⟩ : ∃ m, (decomposeUberName d).machineName = some m := by
      cases hc : (decomposeUberName d).machineName
      · exact absurd hc (h d (List.mem_cons_self _ _))
      · exact ⟨_, rfl⟩
    have hr := ih fun x hx => h x (List.mem_cons_of_mem _ hx)
    have hinst : depInstalled st d = (getLibraryJson st m).isSome := by
      simp [depInstalled, hm]
    simp only [keptDeps, hm, hr, List.filter_cons, hinst]

theorem getFolderPath_installed (st : Libraries) (dep m : JStr) (lib : LibraryJson)
    (hwf : WellFormedFolders st)
    (hm : (decomposeUberName dep).machineName = some m)
    (hlib : getLibraryJson st m = some lib) :
    getFolderPath st dep
      = .ok (some (m ++ '-' :: (natDigits lib.majorVersion ++ '.' :: natDigits lib.minorVersion))) := by
  have hspec := getLibraryJson_spec st m false lib hlib
  obtain ⟨hne, hns⟩ := machineName_spec dep m hm
  have hmm : m = lib.machineName := by
    have := hspec.2
    rw [decompose_no_space m hns] at this
    cases m with
    | nil => exact absurd rfl hne
    | cons c cs =>
      simp only at this
      exact Option.some.inj this
  have hfolder : (m ++ '-' :: (natDigits lib.majorVersion ++ '.' :: natDigits lib.minorVersion))
      ∈ st.folders := by
    rw [hmm]
    exact hwf lib hspec.1
  simp only [getFolderPath, getLibraryJsonOfOpt, hm, hlib, jsShowOptStr]
  rw [if_pos hfolder]

theorem copiedFolders_ok (st : Libraries) (hwf : WellFormedFolders st) :
    ∀ (kept : List JStr), (∀ d ∈ kept, depInstalled st d = true) →
      ∃ fs, copiedFolders st kept = .ok fs := by
  intro kept
  induction kept with
  | nil => intro _; exact ⟨[], rfl⟩
  | cons d rest ih =>
    intro h
    have hd := h d (List.mem_cons_self _ _)
    obtain ⟨m, hm, lib, hlib⟩ : ∃ m, (decomposeUberName d).machineName = some m
        ∧ ∃ lib, getLibraryJson st m = some lib := by
      simp only [depInstalled] at hd
      cases hc : (decomposeUberName d).machineName with
      | none => simp [hc] at hd
      | some m0 =>
        simp only [hc] at hd
        cases hlib : getLibraryJson st m0 with
        | none => simp [hlib] at hd
        | some lib0 => exact ⟨m0, rfl, lib0, hlib⟩
    obtain ⟨fs, hfs⟩ := ih fun x hx => h x (List.mem_cons_of_mem _ hx)
    refine ⟨(m ++ '-' :: (natDigits lib.majorVersion ++ '.' :: natDigits lib.minorVersion))
      :: fs, ?_⟩
    simp only [copiedFolders, getFolderPath_installed st d m lib hwf hm hlib, hfs]

/-- C7: the packages shipped by createExport are exactly the compiled
transitive dependency closure restricted to dependencies whose machine name
resolves to an installed manifest; dependencies that do not resolve are
silently dropped from the shipped set and the export still succeeds. -/
theorem createExport_claim :
    ∀ (st : Libraries) (fuel : Nat) (root : JStr) (deps checked : List JStr),
      WellFormedFolders st →
      compileDependencies st fuel root [] = .ok (deps, checked) →
      (∀ d ∈ deps, (decomposeUberName d).machineName ≠ none) →
      (getLibraryJson st root).isSome = true →
      ∃ folders,
        createExport st fuel root = .ok (deps.filter (depInstalled st), folders)
        ∧ ∀ d ∈ deps, depInstalled st d = false → d ∉ deps.filter (depInstalled st) := by
  intro st fuel root deps checked hwf hdeps hmn hroot
  obtain ⟨rootLib0, hrootlib⟩ : ∃ l, getLibraryJson st root = some l := by
    cases hc : getLibraryJson st root
    · rw [hc] at hroot; cases hroot
    · exact ⟨_, rfl⟩
  have hkept := keptDeps_ok st deps hmn
  have hinst : ∀ d ∈ deps.filter (depInstalled st), depInstalled st d = true := by
    intro d hd
    exact (List.mem_filter.mp hd).2
  obtain ⟨fs, hfs⟩ := copiedFolders_ok st hwf _ hinst
  refine ⟨fs, ?_, ?_⟩
  · simp only [createExport, hdeps, hkept, hfs, hrootlib]
  · intro d _ hnotinst hdin
    rw [(List.mem_filter.mp hdin).2] at hnotinst
    cases hnotinst

/-- Witness for C7: the root depends on M 1.0, which is not installed; the
export ships only the root and succeeds. -/
theorem createExport_claim_witness :
    (∃ folders,
      createExport
        { data := [{ machineName := jstr "Root", majorVersion := 1, minorVersion := 0,
                     patchVersion := 0, runnable := 1,
                     preloadedDependencies := [⟨jstr "M", 1, 0⟩] }],
          folders := [jstr "Root-1.0"] } 10 (jstr "Root")
        = .ok ([jstr "Root 1.0"], folders))
    ∧ jstr "M 1.0" ∉ [jstr "Root 1.0"] := by
  refine ⟨?_, by decide⟩
  obtain ⟨fs, hfs, _⟩ := createExport_claim
    { data := [{ machineName := jstr "Root", majorVersion := 1, minorVersion := 0,
                 patchVersion := 0, runnable := 1,
                 preloadedDependencies := [⟨jstr "M", 1, 0⟩] }],
      folders := [jstr "Root-1.0"] } 10 (jstr "Root")
    [jstr "Root 1.0", jstr "M 1.0"] [jstr "Root 1.0", jstr "M 1.0"]
    (by decide) (by decide) (by decide) (by decide)
  rw [show ([jstr "Root 1.0", jstr "M 1.0"].filter (depInstalled
    { data := [{ machineName := jstr "Root", majorVersion := 1, minorVersion := 0,
                 patchVersion := 0, runnable := 1,
                 preloadedDependencies := [⟨jstr "M", 1, 0⟩] }],
      folders := [jstr "Root-1.0"] })) = [jstr "Root 1.0"] from by decide] at hfs
  exact ⟨fs, hfs⟩

/-! ## C2: termination of the total dependency list -/

theorem truthy_some {o : Option JStr} (h : truthy o = true) : ∃ v, o = some v ∧ v ≠ [] := by
  cases o with
  | none => cases h
  | some v =>
    refine ⟨v, rfl, ?_⟩
    simpa [truthy] using h

theorem decompose_major_bind (u : JStr) :
    (decomposeUberName u).majorVersion
      = ((jsSplit ' ' u).get? 1).bind fun vp => (jsSplit '.' vp).get? 0 := rfl

theorem decompose_minor_bind (u : JStr) :
    (decomposeUberName u).minorVersion
      = ((jsSplit ' ' u).get? 1).bind fun vp => (jsSplit '.' vp).get? 1 := rfl

theorem version_component_spec (u : JStr) (i : Nat) (v : JStr)
    (h : ((jsSplit ' ' u).get? 1).bind (fun vp => (jsSplit '.' vp).get? i) = some v) :
    (∀ c ∈ v, c ≠ '.') ∧ (∀ c ∈ v, c ≠ ' ') := by
  cases hvp : (jsSplit ' ' u).get? 1 with
  | none => rw [hvp] at h; cases h
  | some vp =>
    rw [hvp] at h
    have h2 : (jsSplit '.' vp).get? i = some v := h
    have hv : v ∈ jsSplit '.' vp := List.get?_mem h2
    have hvpm : vp ∈ jsSplit ' ' u := List.get?_mem hvp
    exact ⟨no_sep_of_mem_jsSplit hv,
      fun c hc => no_sep_of_mem_jsSplit hvpm c (mem_of_mem_jsSplit hv hc)⟩

theorem jsShow_mn_spec (u : JStr) :
    jsShowOptStr (decomposeUberName u).machineName ≠ []
      ∧ ∀ c ∈ jsShowOptStr (decomposeUberName u).machineName, c ≠ ' ' := by
  cases hc : (decomposeUberName u).machineName with
  | none => exact ⟨by decide, by decide⟩
  | some m =>
    obtain ⟨hne, hns⟩ := machineName_spec u m hc
    exact ⟨hne, hns⟩

/-- Applying the version carrying normal form twice is the same as applying
it once: its output is a space free token, a space, and two dot free truthy
components, which decompose back to themselves. -/
theorem norm1FormOf_stable (u s : JStr) (h : norm1FormOf u = some s) :
    norm1FormOf s = some s := by
  simp only [norm1FormOf] at h
  split at h
  · rename_i hb
    rw [Bool.and_eq_true] at hb
    obtain ⟨maj, hmaj, hmajne⟩ := truthy_some hb.1
    obtain ⟨minr, hminr, hminrne⟩ := truthy_some hb.2
    injection h with h
    rw [hmaj, hminr] at h
    simp only [Option.getD_some] at h
    obtain ⟨hmajd, hmajs⟩ := version_component_spec u 0 maj (by rw [← decompose_major_bind]; exact hmaj)
    obtain ⟨hminrd, hminrs⟩ := version_component_spec u 1 minr (by rw [← decompose_minor_bind]; exact hminr)
    obtain ⟨hmc, hms⟩ := jsShow_mn_spec u
    have hverno : ∀ c ∈ maj ++ '.' :: minr, c ≠ ' ' := by
      intro c hc
      rcases List.mem_append.mp hc with h1 | h1
      · exact hmajs c h1
      · rcases List.mem_cons.mp h1 with h1 | h1
        · subst h1; decide
        · exact hminrs c h1
    have hdec := decompose_two_tokens (jsShowOptStr (decomposeUberName u).machineName)
      (maj ++ '.' :: minr) hmc hms hverno
    have hsplitver : jsSplit '.' (maj ++ '.' :: minr) = [maj, minr] := by
      rw [jsSplit_append_sep '.' _ _ hmajd, jsSplit_no_sep '.' _ hminrd]
    subst h
    simp only [norm1FormOf, hdec, hsplitver]
    simp [truthy, jsShowOptStr, hmajne, hminrne]
  · cases h

/-- Minor line uber names of the installed manifests, the outputs of the
store consulting branch of getUbernameForMinorVersion. -/
def libNorms (st : Libraries) : List JStr :=
  st.data.map fun l =>
    l.machineName ++ ' ' :: (natDigits l.majorVersion ++ '.' :: natDigits l.minorVersion)

/-- Formatted manifest dependency uber names of all installed manifests. -/
def fmtUniverse (st : Libraries) : List JStr :=
  st.data.flatMap fun l => (l.preloadedDependencies ++ l.editorDependencies).map fmtDep

/-- All configuration embedded dependency strings of all semantics files. -/
def semUniverse (st : Libraries) : List JStr :=
  st.semanticsFiles.flatMap fun p => findH5PDepsSem p.2

/-- Finite universe containing every string the checked list can ever hold
during a traversal rooted at the given uber name. -/
def normUniverse (st : Libraries) (root : JStr) : List JStr :=
  jsSetDedup (libNorms st
    ++ (root :: (fmtUniverse st ++ semUniverse st ++ libNorms st)).filterMap norm1FormOf)

/-- Finite universe containing every string the dependencies accumulator can
ever hold during a traversal rooted at the given uber name. -/
def depUniverse (st : Libraries) (root : JStr) : List JStr :=
  normUniverse st root ++ fmtUniverse st ++ semUniverse st

/-- Every successful normalization lands in either the version carrying
normal form of the input or a minor line of an installed manifest. -/
theorem getUbername_out (st : Libraries) (u s : JStr)
    (h : getUbernameForMinorVersion st u = .ok s) :
    norm1FormOf u = some s ∨ s ∈ libNorms st := by
  unfold getUbernameForMinorVersion at h
  cases hn : norm1FormOf u with
  | some t =>
    rw [hn] at h
    injection h with h
    exact Or.inl (by rw [h])
  | none =>
    rw [hn] at h
    cases hl : getLibraryJson st u false with
    | none => rw [hl] at h; cases h
    | some lib =>
      rw [hl] at h
      injection h with h
      right
      have hspec := getLibraryJson_spec st u false lib hl
      apply List.mem_map.mpr
      refine ⟨lib, hspec.1, ?_⟩
      rw [← h, hspec.2]
      rfl

theorem getUbername_err (st : Libraries) (u : JStr) (e : JsErr)
    (h : getUbernameForMinorVersion st u = .error e) : e = .typeError := by
  unfold getUbernameForMinorVersion at h
  cases hn : norm1FormOf u with
  | some t => rw [hn] at h; cases h
  | none =>
    rw [hn] at h
    cases hl : getLibraryJson st u false with
    | none =>
      rw [hl] at h
      injection h with h
      exact h.symm
    | some lib => rw [hl] at h; cases h

theorem getSemanticsJson_err (st : Libraries) (u : JStr) (e : JsErr)
    (h : getSemanticsJson st u = .error e) : e = .typeError := by
  simp only [getSemanticsJson] at h
  cases hc : (decomposeUberName u).machineName with
  | none =>
    rw [hc] at h
    simp only [getLibraryJsonOfOpt] at h
    injection h with h
    exact h.symm
  | some m =>
    rw [hc] at h
    simp only [getLibraryJsonOfOpt] at h
    cases hgl : getLibraryJson st m with
    | none =>
      simp only [hgl] at h
      cases h
    | some lib =>
      simp only [hgl] at h
      split at h
      · cases h
      · cases h

theorem getDependencies_err (st : Libraries) (u : JStr) (t : DepType) (e : JsErr)
    (h : getDependencies st u t = .error e) : e = .typeError := by
  unfold getDependencies at h
  cases hu : getUbernameForMinorVersion st u with
  | error e0 =>
    rw [hu] at h
    injection h with h
    rw [← h]
    exact getUbername_err st u e0 hu
  | ok un =>
    rw [hu] at h
    split at h
    · rename_i heq
      cases heq
    · split at h
      · cases h
      · split at h
        · split at h
          · rename_i heq2
            injection h with h
            rw [← h]
            exact getSemanticsJson_err st u _ heq2
          · cases h
          · cases h
        · cases h

/-- A successful semantics lookup returns the content of one of the
semantics files of the store. -/
theorem getSemanticsJson_out (st : Libraries) (u : JStr) (sem : Sem)
    (h : getSemanticsJson st u = .ok (some sem)) :
    ∃ p ∈ st.semanticsFiles, p.2 = sem := by
  have hlook : ∀ (f : JStr), semLookup st f = some sem → ∃ p ∈ st.semanticsFiles, p.2 = sem := by
    intro f hf
    simp only [semLookup] at hf
    cases hfind : st.semanticsFiles.find? fun p => p.1 == f with
    | none => rw [hfind] at hf; cases hf
    | some p =>
      rw [hfind] at hf
      injection hf with hf
      exact ⟨p, List.mem_of_find?_eq_some hfind, hf⟩
  simp only [getSemanticsJson] at h
  cases hc : (decomposeUberName u).machineName with
  | none =>
    rw [hc] at h
    simp only [getLibraryJsonOfOpt] at h
    cases h
  | some m =>
    rw [hc] at h
    simp only [getLibraryJsonOfOpt] at h
    cases hgl : getLibraryJson st m with
    | none =>
      simp only [hgl] at h
      cases h
    | some lib =>
      simp only [hgl] at h
      split at h
      · rename_i sem0 heq
        injection h with h
        exact hlook _ (by rw [heq, h])
      · injection h with h
        exact hlook _ h

/-- Elements of a successful dependency query are the normalized minor line
of the queried name, formatted manifest dependencies of some installed
manifest, or configuration embedded dependencies of some semantics file. -/
theorem getDependencies_out (st : Libraries) (u : JStr) (ds : List JStr)
    (h : getDependencies st u .all = .ok ds) :
    ∃ un, getUbernameForMinorVersion st u = .ok un
      ∧ ∀ x ∈ ds, x = un ∨ x ∈ fmtUniverse st ∨ x ∈ semUniverse st := by
  unfold getDependencies at h
  split at h
  · cases h
  · rename_i un heq
    refine ⟨un, heq, ?_⟩
    split at h
    · injection h with h
      subst h
      intro x hx
      cases hx
    · rename_i deps1 heq2
      rw [if_pos (Or.inl rfl)] at heq2
      cases hl : getLibraryJson st u true with
      | none =>
        rw [hl] at heq2
        cases heq2
      | some lib =>
        rw [hl] at heq2
        injection heq2 with heq2
        have hlib := getLibraryJson_spec st u true lib hl
        have hfmt : ∀ x ∈ lib.preloadedDependencies.map fmtDep
            ++ lib.editorDependencies.map fmtDep, x ∈ fmtUniverse st := by
          intro x hx
          apply List.mem_flatMap.mpr
          refine ⟨lib, hlib.1, ?_⟩
          rw [List.map_append]
          exact hx
        have hbase : ∀ x ∈ deps1, x = un ∨ x ∈ fmtUniverse st := by
          intro x hx
          rw [← heq2] at hx
          rcases List.mem_cons.mp hx with hx | hx
          · exact Or.inl hx
          · exact Or.inr (hfmt x hx)
        split at h
        · split at h
          · cases h
          · injection h with h
            subst h
            intro x hx
            rw [mem_jsSetDedup] at hx
            rcases hbase x hx with h1 | h1
            · exact Or.inl h1
            · exact Or.inr (Or.inl h1)
          · rename_i sem hsem
            injection h with h
            subst h
            intro x hx
            rw [mem_jsSetDedup] at hx
            rcases List.mem_append.mp hx with hx | hx
            · rcases hbase x hx with h1 | h1
              · exact Or.inl h1
              · exact Or.inr (Or.inl h1)
            · refine Or.inr (Or.inr ?_)
              obtain ⟨p, hp, hpe⟩ := getSemanticsJson_out st u sem hsem
              apply List.mem_flatMap.mpr
              exact ⟨p, hp, by rw [hpe]; exact hx⟩
        · injection h with h
          subst h
          intro x hx
          rw [mem_jsSetDedup] at hx
          rcases hbase x hx with h1 | h1
          · exact Or.inl h1
          · exact Or.inr (Or.inl h1)

/-- Every successful normalization of a name drawn from the dependency
universe, or of the root, lands inside the checked universe. -/
theorem norm_mem_universe (st : Libraries) (root u s : JStr)
    (hu : u ∈ depUniverse st root ∨ u = root)
    (h : getUbernameForMinorVersion st u = .ok s) :
    s ∈ normUniverse st root := by
  have hsrc : ∀ t, t ∈ (root :: (fmtUniverse st ++ semUniverse st ++ libNorms st)) →
      norm1FormOf t = some s → s ∈ normUniverse st root := by
    intro t ht hn
    rw [normUniverse, mem_jsSetDedup]
    apply List.mem_append.mpr
    right
    exact List.mem_filterMap.mpr ⟨t, ht, hn⟩
  rcases getUbername_out st u s h with hn | hl
  · rcases hu with hmem | hroot
    · have hcases : u ∈ normUniverse st root ∨ u ∈ fmtUniverse st ∨ u ∈ semUniverse st := by
        simpa [depUniverse, List.mem_append, or_assoc] using hmem
      rcases hcases with h1 | h1 | h1
      · have hu1 := h1
        rw [normUniverse, mem_jsSetDedup] at h1
        rcases List.mem_append.mp h1 with h2 | h2
        · exact hsrc u (by simp [List.mem_cons, List.mem_append, h2]) hn
        · obtain ⟨t, _, htn⟩ := List.mem_filterMap.mp h2
          have hstab := norm1FormOf_stable t u htn
          rw [hstab] at hn
          injection hn with hn
          rw [← hn]
          exact hu1
      · exact hsrc u (by simp [List.mem_cons, List.mem_append, h1]) hn
      · exact hsrc u (by simp [List.mem_cons, List.mem_append, h1]) hn
    · subst hroot
      exact hsrc u (List.mem_cons_self _ _) hn
  · rw [normUniverse, mem_jsSetDedup]
    exact List.mem_append.mpr (Or.inl hl)

theorem nodup_subset_length {l L : List JStr} (hnd : l.Nodup) (hsub : ∀ x ∈ l, x ∈ L) :
    l.length ≤ L.length := by
  calc l.length = l.toFinset.card := (List.toFinset_card_of_nodup hnd).symm
    _ ≤ L.toFinset.card := Finset.card_le_card (fun x hx =>
        List.mem_toFinset.mpr (hsub x (List.mem_toFinset.mp hx)))
    _ ≤ L.length := L.toFinset_card_le

theorem getUbername_nil (st : Libraries) :
    getUbernameForMinorVersion st [] = .error .typeError := by
  have h1 : norm1FormOf [] = none := rfl
  have h2 : getLibraryJson st [] false = none :=
    getLibraryJson_not_installed st [] false (by intro l _; simp [decomposeUberName, jsSplit])
  unfold getUbernameForMinorVersion
  rw [h1, h2]

/-- Core of C2: with the checked list inside its finite universe and enough
fuel to cover the part of the universe not yet checked, the traversal never
runs out of fuel: every run ends in a value or a thrown type error. -/
theorem compileTotalDependencyList_no_fuel (st : Libraries) (root : JStr) :
    ∀ (fuel : Nat) (u : JStr) (checked deps : List JStr),
      checked.Nodup →
      (∀ c ∈ checked, c ∈ normUniverse st root) →
      (∀ x ∈ deps, x ∈ depUniverse st root) →
      (u ∈ depUniverse st root ∨ u = root ∨ u = []) →
      (normUniverse st root).length < fuel + checked.length →
      compileTotalDependencyList st fuel u checked deps ≠ .error .fuelExhausted := by
  intro fuel
  induction fuel with
  | zero =>
    intro u checked deps hnd hcsub _ _ hlen _
    have := nodup_subset_length hnd hcsub
    omega
  | succ fuel ih =>
    intro u checked deps hnd hcsub hdsub hu hlen h
    simp only [compileTotalDependencyList] at h
    split at h
    · rename_i e heq
      injection h with h
      have := getUbername_err st u e heq
      rw [h] at this
      cases this
    · rename_i un heq
      have hu2 : u ∈ depUniverse st root ∨ u = root := by
        rcases hu with h1 | h1 | h1
        · exact Or.inl h1
        · exact Or.inr h1
        · subst h1
          rw [getUbername_nil st] at heq
          cases heq
      have hunU : un ∈ normUniverse st root := norm_mem_universe st root u un hu2 heq
      split at h
      · cases h
      · rename_i hnotin
        split at h
        · rename_i e heq2
          injection h with h
          have := getDependencies_err st u .all e heq2
          rw [h] at this
          cases this
        · rename_i myDeps heq2
          split at h
          · cases h
          · split at h
            · rename_i e2 heq3
              injection h with h
              rw [h] at heq3
              have hnd1 : (checked ++ [un]).Nodup := by
                rw [List.nodup_append]
                refine ⟨hnd, List.nodup_singleton _, ?_⟩
                intro a ha hab
                rw [List.mem_singleton] at hab
                subst hab
                exact hnotin ha
              have hcsub1 : ∀ c ∈ checked ++ [un], c ∈ normUniverse st root := by
                intro c hc
                rcases List.mem_append.mp hc with hc | hc
                · exact hcsub c hc
                · rw [List.mem_singleton] at hc
                  subst hc
                  exact hunU
              obtain ⟨un', hun', hclass⟩ := getDependencies_out st u myDeps heq2
              rw [heq] at hun'
              injection hun' with hun'
              have hdsub1 : ∀ x ∈ jsSetDedup (deps ++ myDeps), x ∈ depUniverse st root := by
                intro x hx
                rw [mem_jsSetDedup] at hx
                rcases List.mem_append.mp hx with hx | hx
                · exact hdsub x hx
                · rcases hclass x hx with h1 | h1 | h1
                  · subst h1
                    rw [← hun']
                    simp [depUniverse, List.mem_append, hunU]
                  · simp [depUniverse, List.mem_append, h1]
                  · simp [depUniverse, List.mem_append, h1]
              have harg : ((jsSetDedup (deps ++ myDeps)).filter
                  (fun d => d ∉ checked ++ [un])).headD []
                    ∈ depUniverse st root
                  ∨ ((jsSetDedup (deps ++ myDeps)).filter
                      (fun d => d ∉ checked ++ [un])).headD [] = root
                  ∨ ((jsSetDedup (deps ++ myDeps)).filter
                      (fun d => d ∉ checked ++ [un])).headD [] = [] := by
                cases ht0 : (jsSetDedup (deps ++ myDeps)).filter
                    (fun d => d ∉ checked ++ [un]) with
                | nil => exact Or.inr (Or.inr rfl)
                | cons t ts =>
                  left
                  have ht : t ∈ jsSetDedup (deps ++ myDeps) := by
                    have : t ∈ (jsSetDedup (deps ++ myDeps)).filter
                        (fun d => d ∉ checked ++ [un]) := by
                      rw [ht0]
                      exact List.mem_cons_self _ _
                    exact (List.mem_filter.mp this).1
                  exact hdsub1 t ht
              have hlen1 : (normUniverse st root).length
                  < fuel + (checked ++ [un]).length := by
                rw [List.length_append, List.length_singleton]
                omega
              exact ih _ _ _ hnd1 hcsub1 hdsub1 harg hlen1 heq3
            · cases h

/-- C2: the total dependency list computation terminates on every store and
every dependency graph, cycles included: given fuel beyond the finite
universe of minor line names it can ever check, it never exhausts the fuel;
a name already checked is returned without re-expansion; and on the two
package cycle A requires B, B requires A the traversal returns exactly the
two minor line identities. -/
theorem compileTotalDependencyList_claim :
    (∀ (st : Libraries) (root : JStr) (fuel : Nat),
       (normUniverse st root).length < fuel →
       compileTotalDependencyList st fuel root [] [] ≠ .error .fuelExhausted)
    ∧ (∀ (st : Libraries) (fuel : Nat) (u un : JStr) (checked deps : List JStr),
         getUbernameForMinorVersion st u = .ok un → un ∈ checked →
         compileTotalDependencyList st (fuel + 1) u checked deps = .ok deps)
    ∧ compileTotalDependencyList cycleStore 10 (jstr "A 1.0") [] []
        = .ok [jstr "A 1.0", jstr "B 1.0"] := by
  refine ⟨?_, ?_, by decide⟩
  · intro st root fuel hfuel
    apply compileTotalDependencyList_no_fuel st root fuel root [] []
      (by simp) (by simp) (by simp) (Or.inr (Or.inl rfl))
    simpa using hfuel
  · intro st fuel u un checked deps hun hin
    simp only [compileTotalDependencyList, hun, if_pos hin]

/-- Witness for C2: on the two package cycle the bound is met at fuel ten
and the traversal cannot exhaust its fuel; the re-expansion guard returns
the accumulator unchanged on a checked name. -/
theorem compileTotalDependencyList_claim_witness :
    compileTotalDependencyList cycleStore 10 (jstr "A 1.0") [] []
        ≠ .error .fuelExhausted
    ∧ compileTotalDependencyList cycleStore 3 (jstr "A 1.0") [jstr "A 1.0"] [jstr "Q 9.9"]
        = .ok [jstr "Q 9.9"] := by
  constructor
  · exact compileTotalDependencyList_claim.1 cycleStore (jstr "A 1.0") 10 (by decide)
  · exact compileTotalDependencyList_claim.2.1 cycleStore 2 (jstr "A 1.0") (jstr "A 1.0")
      [jstr "A 1.0"] [jstr "Q 9.9"] (by decide) (by decide)

end Catharsis

